/-
Verification of the hash-to-curve library (RFC 9380 style hashing to
elliptic-curve groups) against its natural-language specification.

The Go sources are shallowly embedded: byte strings become `List ℕ`
(each entry an octet, i.e. `< 256`), `big.Int` values that are kept
reduced modulo a prime become `ZMod p`, unsigned machine integers
become `ℕ` with explicit truncation `% 2 ^ w` where the source
converts, and panicking functions return `Except Err α`.  External
primitives (fixed-length hash functions, XOFs) are parameters: an
abstract function together with its digest size and block size,
exactly the interface the Go code consumes.
-/
import Mathlib

set_option maxRecDepth 40000

namespace H2C

/-! ## Byte-string primitives

A byte string is a `List ℕ` whose entries are octets.  `os2ip` is the
big-endian interpretation of a byte string as an unsigned integer,
the semantics of Go's `new(big.Int).SetBytes`. -/

/-- Big-endian interpretation of a byte string as an unsigned integer
(the semantics of `big.Int.SetBytes`). -/
def os2ip (bs : List ℕ) : ℕ := bs.foldl (fun acc b => acc * 256 + b) 0

/-- The two big-endian bytes written by `binary.BigEndian.PutUint16`. -/
def beBytes2 (x : ℕ) : List ℕ := [x / 2 ^ 8 % 2 ^ 8, x % 2 ^ 8]

/-- The four big-endian bytes written by `binary.BigEndian.PutUint32`. -/
def beBytes4 (x : ℕ) : List ℕ :=
  [x / 2 ^ 24 % 2 ^ 8, x / 2 ^ 16 % 2 ^ 8, x / 2 ^ 8 % 2 ^ 8, x % 2 ^ 8]

/-- Big-endian, left-zero-padded encoding of `x` on `w` bytes: the
semantics of Go's `big.Int.FillBytes` into a `w`-byte buffer,
faithful for `x < 2 ^ (8 * w)` (higher bits would not fit the buffer
and `FillBytes` would panic). -/
def fillBytes : ℕ → ℕ → List ℕ
  | 0, _ => []
  | w + 1, x => x / 2 ^ (8 * w) % 2 ^ 8 :: fillBytes w x

theorem os2ip_foldl_shift :
    ∀ (ys : List ℕ) (a : ℕ),
      List.foldl (fun acc b => acc * 256 + b) a ys =
        a * 256 ^ ys.length + List.foldl (fun acc b => acc * 256 + b) 0 ys := by
  intro ys
  induction ys with
  | nil => intro a; simp
  | cons y ys ih =>
    intro a
    rw [List.foldl_cons, List.foldl_cons, ih (a * 256 + y), ih (0 * 256 + y),
      List.length_cons, pow_succ]
    ring

theorem os2ip_append (xs ys : List ℕ) :
    os2ip (xs ++ ys) = os2ip xs * 256 ^ ys.length + os2ip ys := by
  unfold os2ip
  rw [List.foldl_append]
  exact os2ip_foldl_shift ys _

/-! ## Panic modes

All abort-style failures of the library, one constructor per `panic`
cause found in the sources. -/

inductive Err where
  /-- I2OSP: requested length is zero. -/
  | lengthInvalid
  /-- I2OSP: requested length is above four. -/
  | lengthTooBig
  /-- I2OSP: the value does not fit the requested length. -/
  | valueOutOfRange
  /-- the public expanders reject an empty DST. -/
  | zeroLenDST
  /-- expand: requested byte length is too high. -/
  | lengthTooLarge
  /-- DST vetting: the digest itself is longer than 255 bytes. -/
  | hashTooLong
  /-- XOF DST vetting: security level cannot be delivered. -/
  | xofHighOutput
  /-- reduction modulo zero (Go `big.Int.Mod` run-time panic). -/
  | divByZero
deriving DecidableEq, Repr

instance instDecEqExcept {ε α : Type} [DecidableEq ε] [DecidableEq α] :
    DecidableEq (Except ε α)
  | .ok a, .ok b => decidable_of_iff (a = b) (by simp)
  | .error e, .error f => decidable_of_iff (e = f) (by simp)
  | .ok _, .error _ => isFalse (by simp)
  | .error _, .ok _ => isFalse (by simp)

/-! ## I2OSP

Embedding of `I2osp` (internal/i2osp.go).  The Go source zero-fills a
scratch 4-byte buffer, writes with `PutUint16`/`PutUint32` after
converting the value to `uint16`/`uint32`, and returns the relevant
slice of the buffer.  The checks mirror the source order: length
zero, then length above four, then value out of range. -/

def I2osp (value length : ℕ) : Except Err (List ℕ) :=
  if length = 0 then .error .lengthInvalid
  else if 4 < length then .error .lengthTooBig
  else if 2 ^ (8 * length) ≤ value then .error .valueOutOfRange
  else if length = 1 then .ok ((beBytes2 (value % 2 ^ 16)).drop 1)
  else if length = 2 then .ok (beBytes2 (value % 2 ^ 16))
  else if length = 3 then .ok ((beBytes4 (value % 2 ^ 32)).drop 1)
  else .ok (beBytes4 (value % 2 ^ 32))

/-- The claim speaks of one length-invalid failure; the source panics
with two distinct errors for length 0 and length above 4.  A failure
is length-invalid when it is either of the two. -/
def lengthInvalidErr (r : Except Err (List ℕ)) : Prop :=
  r = .error .lengthInvalid ∨ r = .error .lengthTooBig

instance (r : Except Err (List ℕ)) : Decidable (lengthInvalidErr r) := by
  unfold lengthInvalidErr; infer_instance

theorem i2osp_ok_iff (v n : ℕ) :
    (∃ bs, I2osp v n = .ok bs) ↔ (1 ≤ n ∧ n ≤ 4 ∧ v < 2 ^ (8 * n)) := by
  unfold I2osp
  constructor
  · rintro ⟨bs, h⟩
    by_cases h0 : n = 0
    · simp [h0] at h
    by_cases h4 : 4 < n
    · simp [h0, h4] at h
    by_cases hv : 2 ^ (8 * n) ≤ v
    · simp [h0, h4, hv] at h
    exact ⟨by omega, by omega, by omega⟩
  · rintro ⟨h1, h4, hv⟩
    have h0 : ¬ n = 0 := by omega
    have h4' : ¬ 4 < n := by omega
    have hv' : ¬ 2 ^ (8 * n) ≤ v := by omega
    simp only [h0, h4', hv', if_false]
    by_cases e1 : n = 1
    · simp [e1]
    by_cases e2 : n = 2
    · simp [e1, e2]
    by_cases e3 : n = 3
    · simp [e1, e2, e3]
    simp [e1, e2, e3]

theorem i2osp_ok_spec (v n : ℕ) (h1 : 1 ≤ n) (h4 : n ≤ 4) (hv : v < 2 ^ (8 * n)) :
    ∃ bs, I2osp v n = .ok bs ∧ bs.length = n ∧ os2ip bs = v ∧ ∀ b ∈ bs, b < 2 ^ 8 := by
  unfold I2osp beBytes2 beBytes4
  have h0 : ¬ n = 0 := by omega
  have h4' : ¬ 4 < n := by omega
  have hv' : ¬ 2 ^ (8 * n) ≤ v := by omega
  simp only [h0, h4', hv', if_false]
  interval_cases n
  · have hv8 : v < 2 ^ 8 := by omega
    refine ⟨_, rfl, by simp, ?_, ?_⟩
    · simp only [os2ip, List.drop, List.foldl]
      omega
    · intro b hb
      simp only [List.drop, List.mem_singleton] at hb
      omega
  · have hv16 : v < 2 ^ 16 := by omega
    refine ⟨_, rfl, by simp, ?_, ?_⟩
    · simp only [os2ip, List.foldl]
      omega
    · intro b hb
      simp only [List.mem_cons, List.mem_singleton] at hb
      rcases hb with hb | hb | hb <;> first | omega | simp at hb
  · have hv24 : v < 2 ^ 24 := by omega
    refine ⟨_, rfl, by simp, ?_, ?_⟩
    · simp only [os2ip, List.drop, List.foldl]
      omega
    · intro b hb
      simp only [List.drop, List.mem_cons, List.mem_singleton] at hb
      rcases hb with hb | hb | hb | hb <;> first | omega | simp at hb
  · have hv32 : v < 2 ^ 32 := by omega
    refine ⟨_, rfl, by simp, ?_, ?_⟩
    · simp only [os2ip, List.foldl]
      omega
    · intro b hb
      simp only [List.mem_cons, List.mem_singleton] at hb
      rcases hb with hb | hb | hb | hb | hb <;> first | omega | simp at hb

/-- Claim C6: `I2osp` fails with a length-invalid error exactly when
the length is 0 or above 4; among length-valid inputs it fails with
the value-out-of-range error exactly when `v ≥ 2 ^ (8 n)`; otherwise
it returns exactly `n` big-endian octets that decode (`os2ip`, the
`OS2IP` of RFC 8017) back to `v`. -/
theorem claim_c6_i2osp (v n : ℕ) :
    (lengthInvalidErr (I2osp v n) ↔ (n = 0 ∨ 4 < n)) ∧
    (I2osp v n = .error .valueOutOfRange ↔ (1 ≤ n ∧ n ≤ 4 ∧ 2 ^ (8 * n) ≤ v)) ∧
    ((1 ≤ n ∧ n ≤ 4 ∧ v < 2 ^ (8 * n)) →
      ∃ bs, I2osp v n = .ok bs ∧ bs.length = n ∧ os2ip bs = v ∧ ∀ b ∈ bs, b < 2 ^ 8) := by
  refine ⟨?_, ?_, fun h => i2osp_ok_spec v n h.1 h.2.1 h.2.2⟩
  · by_cases h0 : n = 0
    · simp [lengthInvalidErr, I2osp, h0]
    by_cases h4 : 4 < n
    · simp [lengthInvalidErr, I2osp, h0, h4]
    by_cases hv : 2 ^ (8 * n) ≤ v
    · simp [lengthInvalidErr, I2osp, h0, h4, hv]
    obtain ⟨bs, hbs⟩ := (i2osp_ok_iff v n).2 ⟨by omega, by omega, by omega⟩
    rw [hbs]
    simp [lengthInvalidErr, h0, h4]
  · by_cases h0 : n = 0
    · simp [I2osp, h0]
    by_cases h4 : 4 < n
    · simp only [I2osp, if_neg h0, if_pos h4]
      constructor
      · intro h
        exact absurd (Except.error.inj h) (by decide)
      · intro h
        omega
    by_cases hv : 2 ^ (8 * n) ≤ v
    · simp only [I2osp, if_neg h0, if_neg h4, if_pos hv]
      constructor
      · intro _
        exact ⟨by omega, by omega, hv⟩
      · intro _
        trivial
    obtain ⟨bs, hbs⟩ := (i2osp_ok_iff v n).2 ⟨by omega, by omega, by omega⟩
    rw [hbs]
    constructor
    · intro h
      exact Except.noConfusion h
    · intro h
      omega

/-- Witness for C6 at the spec's own test vector `I2OSP(16770000, 3) =
ff e3 d0` (spec §8 E5), discharging the ok-branch hypothesis. -/
theorem claim_c6_i2osp_witness :
    (1 ≤ 3 ∧ 3 ≤ 4 ∧ 16770000 < 2 ^ (8 * 3)) ∧
    ∃ bs, I2osp 16770000 3 = .ok bs ∧ bs.length = 3 ∧
      os2ip bs = 16770000 ∧ ∀ b ∈ bs, b < 2 ^ 8 :=
  ⟨by decide, (claim_c6_i2osp 16770000 3).2.2 (by decide)⟩

example : I2osp 16770000 3 = .ok [0xff, 0xe3, 0xd0] := by decide

example : I2osp 4294960000 4 = .ok [0xff, 0xff, 0xe3, 0x80] := by decide

theorem i2osp_one_of_le (l : ℕ) (h : l ≤ 255) : I2osp l 1 = .ok [l] := by
  have hv : ¬ 2 ^ (8 * 1) ≤ l := by omega
  unfold I2osp
  rw [if_neg (by omega : ¬ (1 : ℕ) = 0), if_neg (by omega : ¬ (4 : ℕ) < 1), if_neg hv,
    if_pos rfl]
  show Except.ok [l % 2 ^ 16 % 2 ^ 8] = Except.ok [l]
  have e : l % 2 ^ 16 % 2 ^ 8 = l := by omega
  rw [e]

theorem i2osp_two_of_le (l : ℕ) (h : l ≤ 65535) : I2osp l 2 = .ok [l / 2 ^ 8, l % 2 ^ 8] := by
  have hv : ¬ 2 ^ (8 * 2) ≤ l := by omega
  unfold I2osp
  rw [if_neg (by omega : ¬ (2 : ℕ) = 0), if_neg (by omega : ¬ (4 : ℕ) < 2), if_neg hv,
    if_neg (by omega : ¬ (2 : ℕ) = 1), if_pos rfl]
  show Except.ok [l % 2 ^ 16 / 2 ^ 8 % 2 ^ 8, l % 2 ^ 16 % 2 ^ 8] = _
  have e1 : l % 2 ^ 16 / 2 ^ 8 % 2 ^ 8 = l / 2 ^ 8 := by omega
  have e2 : l % 2 ^ 16 % 2 ^ 8 = l % 2 ^ 8 := by omega
  rw [e1, e2]

/-! ## Message expansion

Embedding of the internal expanders (RFC 9380 §5.3.1 and §5.3.2).
The fixed-length hash and the XOF are external primitives; they are
modelled as abstract functions together with the size data the Go
code reads off them.  Streaming `Write` calls concatenate, so the
variadic `_hash(h, parts...)` of the source is the digest of the
concatenation of its parts. -/

/-- An abstract fixed-length hash primitive: digest function, digest
size and block size, the data the source reads from a `crypto.Hash`. -/
structure MDHash where
  H : List ℕ → List ℕ
  size : ℕ
  blockSize : ℕ

/-- A hash is regular when every digest has exactly `size` bytes. -/
def MDHash.Regular (hh : MDHash) : Prop := ∀ x, (hh.H x).length = hh.size

/-- An abstract extendable-output function: `X input n` emits `n`
bytes; `size` is the default output size and `k` the security level
reported by the algorithm. -/
structure XOFHash where
  X : List ℕ → ℕ → List ℕ
  size : ℕ
  k : ℕ

/-- An XOF is regular when asking `n` bytes yields `n` bytes. -/
def XOFHash.Regular (x : XOFHash) : Prop := ∀ inp n, (x.X inp n).length = n

/-- `dstMaxLength` constant of the source. -/
def dstMaxLength : ℕ := 255

/-- The ASCII bytes of the `dstLongPrefix` string `H2C-OVERSIZE-DST-`. -/
def dstLongPrefix : List ℕ :=
  [72, 50, 67, 45, 79, 86, 69, 82, 83, 73, 90, 69, 45, 68, 83, 84, 45]

/-- `VetDSTXMD`: an oversize DST is replaced by a digest of the
prefixed DST; panics when the digest itself exceeds 255 bytes. -/
def VetDSTXMD (hh : MDHash) (dst : List ℕ) : Except Err (List ℕ) :=
  if dst.length ≤ dstMaxLength then .ok dst
  else if dstMaxLength < hh.size then .error .hashTooLong
  else .ok (hh.H (dstLongPrefix ++ dst))

/-- `VetXofDST`: the oversize replacement is produced by the XOF at
output size `ceil(2k/8)`; panics when that exceeds `8 * Size()`. -/
def VetXofDST (x : XOFHash) (dst : List ℕ) : Except Err (List ℕ) :=
  if dst.length ≤ dstMaxLength then .ok dst
  else
    let size := (2 * x.k + 7) / 8
    if x.size * 8 < size then .error .xofHighOutput
    else .ok (x.X (dstLongPrefix ++ dst) size)

/-- `DstPrime`: length-suffix encoding `dst ++ I2OSP(len dst, 1)`. -/
def DstPrime (dst : List ℕ) : Except Err (List ℕ) := do
  let suffix ← I2osp dst.length 1
  return dst ++ [suffix.headI]

/-- `xorSlices`: byte-wise xor of two equal-length byte strings (the
source mutates its first argument in place and returns it; the pure
result is the same). -/
def xorSlices (bi b0 : List ℕ) : List ℕ := List.zipWith (fun a b => Nat.xor a b) bi b0

/-- The loop of `xmd`: starting from `b1`, `k` further blocks are
produced, each `b_i = H((b_prev XOR b0) || byte(i) || dstPrime)`, and
appended to the running uniform buffer.  Returns the pair of the last
block and the buffer. -/
def xmdSteps (hh : MDHash) (b0 dstP b1 : List ℕ) : ℕ → List ℕ × List ℕ
  | 0 => (b1, b1)
  | k + 1 =>
    let prev := xmdSteps hh b0 dstP b1 k
    let bi := hh.H (xorSlices prev.1 b0 ++ [(k + 2) % 2 ^ 8] ++ dstP)
    (bi, prev.2 ++ bi)

/-- Internal `ExpandXMD` (RFC 9380 §5.3.1): vet the DST, check the
preconditions, then produce `b0`, `b1` and the chained blocks, and
truncate to the requested length. -/
def ExpandXMDInternal (hh : MDHash) (input dst0 : List ℕ) (length : ℕ) :
    Except Err (List ℕ) := do
  let dst ← VetDSTXMD hh dst0
  let b := hh.size
  let ell := (length + b - 1) / b
  if 255 < ell ∨ 65535 < length ∨ 255 < dst.length then
    .error .lengthTooLarge
  else do
    let lib ← I2osp length 2
    let dstP ← DstPrime dst
    let zPad := List.replicate hh.blockSize 0
    let b0 := hh.H (zPad ++ input ++ lib ++ [0] ++ dstP)
    let b1 := hh.H (b0 ++ [1] ++ dstP)
    if ell < 2 then return b1.take length
    else return (xmdSteps hh b0 dstP b1 (ell - 1)).2.take length

/-- Internal `ExpandXOF` (RFC 9380 §5.3.2): length check, DST
vetting, then one XOF call over
`input || I2OSP(len, 2) || dst || I2OSP(len dst, 1)`. -/
def ExpandXOFInternal (x : XOFHash) (input dst0 : List ℕ) (length : ℕ) :
    Except Err (List ℕ) :=
  if 65535 < length then .error .lengthTooLarge
  else do
    let dst ← VetXofDST x dst0
    let len2o ← I2osp length 2
    let dstLen2o ← I2osp dst.length 1
    return x.X (input ++ len2o ++ dst ++ dstLen2o) length

/-- `checkDST` of the public package: only a zero-length DST panics
(lengths 1–15 are merely discouraged). -/
def checkDST (dst : List ℕ) : Except Err Unit :=
  if dst.length < 16 then
    if dst.length = 0 then .error .zeroLenDST else .ok ()
  else .ok ()

/-- Public `ExpandXMD` entry point: DST check, then internal expansion. -/
def ExpandXMD (hh : MDHash) (input dst : List ℕ) (length : ℕ) : Except Err (List ℕ) := do
  checkDST dst
  ExpandXMDInternal hh input dst length

/-- Public `ExpandXOF` entry point: DST check, then internal expansion. -/
def ExpandXOF (x : XOFHash) (input dst : List ℕ) (length : ℕ) : Except Err (List ℕ) := do
  checkDST dst
  ExpandXOFInternal x input dst length

/-! ## Elementary facts about the monadic plumbing -/

theorem bind_ok_eq {α β : Type} (a : α) (f : α → Except Err β) :
    ((Except.ok a : Except Err α) >>= f) = f a := rfl

theorem bind_error_eq {α β : Type} (e : Err) (f : α → Except Err β) :
    ((Except.error e : Except Err α) >>= f) = .error e := rfl

theorem pure_ne_error {β : Type} (a : β) (z : Err) :
    (pure a : Except Err β) ≠ .error z := fun h => Except.noConfusion h

theorem bind_ne_error {α β : Type} {z : Err} (f : Except Err α) (g : α → Except Err β)
    (hf : f ≠ .error z) (hg : ∀ a, g a ≠ .error z) : (f >>= g) ≠ .error z := by
  cases f with
  | ok a => rw [bind_ok_eq]; exact hg a
  | error e =>
    rw [bind_error_eq]
    intro h
    exact hf (by rw [Except.error.inj h])

theorem checkDST_ok {dst : List ℕ} (h : dst ≠ []) : checkDST dst = .ok () := by
  unfold checkDST
  have h0 : dst.length ≠ 0 := fun hl => h (List.length_eq_zero.mp hl)
  by_cases h1 : dst.length < 16
  · rw [if_pos h1, if_neg h0]
  · rw [if_neg h1]

theorem dstPrime_of_le {dst : List ℕ} (h : dst.length ≤ 255) :
    DstPrime dst = .ok (dst ++ [dst.length]) := by
  unfold DstPrime
  rw [i2osp_one_of_le dst.length h, bind_ok_eq]
  rfl

/-! ## The spec formula for expand_message_xmd (claim C3) -/

/-- The block chain of RFC 9380 §5.3.1 as the spec writes it:
`b1 = H(b0 || 0x01 || dst_prime)` and, for `i ≥ 2`,
`b_i = H((b_(i-1) XOR b0) || I2OSP(i, 1) || dst_prime)`; index 0
returns `b0` itself.  All indices used stay at or below 255, where
`I2OSP(i, 1)` is the single byte `i`. -/
def xmdSpecBlock (hh : MDHash) (b0 dstP : List ℕ) : ℕ → List ℕ
  | 0 => b0
  | 1 => hh.H (b0 ++ [1] ++ dstP)
  | i + 2 => hh.H (xorSlices (xmdSpecBlock hh b0 dstP (i + 1)) b0 ++ [i + 2] ++ dstP)

/-- The spec's output `(b1 || … || b_ell)[0 .. L]`, with
`dst_prime = DST || I2OSP(len DST, 1)`,
`b0 = H(Z_pad || msg || I2OSP(L, 2) || 0x00 || dst_prime)` and
`ell = ceil(L / b)`. -/
def xmdSpecOutput (hh : MDHash) (msg dst : List ℕ) (L : ℕ) : List ℕ :=
  let dstP := dst ++ [dst.length]
  let b0 := hh.H (List.replicate hh.blockSize 0 ++ msg ++ [L / 2 ^ 8, L % 2 ^ 8] ++ [0] ++ dstP)
  let ell := (L + hh.size - 1) / hh.size
  (((List.range ell).map (fun j => xmdSpecBlock hh b0 dstP (j + 1))).flatten).take L

theorem xmdSteps_spec (hh : MDHash) (b0 dstP : List ℕ) :
    ∀ k, k + 1 ≤ 255 →
      xmdSteps hh b0 dstP (xmdSpecBlock hh b0 dstP 1) k =
        (xmdSpecBlock hh b0 dstP (k + 1),
          ((List.range (k + 1)).map (fun j => xmdSpecBlock hh b0 dstP (j + 1))).flatten) := by
  intro k
  induction k with
  | zero =>
    intro _
    show (xmdSpecBlock hh b0 dstP 1, xmdSpecBlock hh b0 dstP 1) = _
    have hr1 : List.range 1 = [0] := rfl
    rw [hr1]
    simp
  | succ k ih =>
    intro hk
    have hk' : k + 1 ≤ 255 := by omega
    show (let prev := xmdSteps hh b0 dstP (xmdSpecBlock hh b0 dstP 1) k
          let bi := hh.H (xorSlices prev.1 b0 ++ [(k + 2) % 2 ^ 8] ++ dstP)
          (bi, prev.2 ++ bi)) = _
    rw [ih hk']
    have hmod : (k + 2) % 2 ^ 8 = k + 2 := by omega
    simp only [hmod]
    have hblk : hh.H (xorSlices (xmdSpecBlock hh b0 dstP (k + 1)) b0 ++ [k + 2] ++ dstP) =
        xmdSpecBlock hh b0 dstP (k + 2) := rfl
    rw [hblk]
    have hrange : List.range (k + 2) = List.range (k + 1) ++ [k + 1] := List.range_succ (k + 1)
    rw [hrange, List.map_append, List.flatten_append]
    simp

theorem sum_map_const (l : List ℕ) (f : ℕ → ℕ) (c : ℕ) (h : ∀ b ∈ l, f b = c) :
    (l.map f).sum = l.length * c := by
  induction l with
  | nil => simp
  | cons x xs ih =>
    simp only [List.map_cons, List.sum_cons, List.length_cons]
    rw [h x (by simp), ih (fun b hb => h b (by simp [hb]))]
    ring

theorem xmdSpecBlock_length (hh : MDHash) (b0 dstP : List ℕ) (hreg : hh.Regular) :
    ∀ i, 1 ≤ i → (xmdSpecBlock hh b0 dstP i).length = hh.size := by
  intro i hi
  match i, hi with
  | 1, _ => exact hreg _
  | (j + 2), _ => exact hreg _

/-- Claim C3: with a vetted non-empty DST and an accepted length, the
public `ExpandXMD` returns exactly the spec's
`(b1 || … || b_ell)[0 .. L]`, and that output has exactly `L` bytes.
The hash is abstract: `hreg` says every digest has `size` bytes, and
the digest size is positive (true of every `crypto.Hash`).  The
ceiling `(L + b - 1) / b` is exact for the source's
`math.Ceil(float64(L) / float64(b))` since both operands are small
enough to be exact in `float64`. -/
theorem claim_c3_expand_xmd (hh : MDHash) (msg dst : List ℕ) (L : ℕ)
    (hreg : hh.Regular) (hb : 0 < hh.size)
    (hne : dst ≠ []) (hdst : dst.length ≤ 255)
    (hell : (L + hh.size - 1) / hh.size ≤ 255) (hL : L ≤ 65535) :
    ExpandXMD hh msg dst L = .ok (xmdSpecOutput hh msg dst L) ∧
      (xmdSpecOutput hh msg dst L).length = L := by
  have hdivmod := Nat.div_add_mod (L + hh.size - 1) hh.size
  have hmodlt : (L + hh.size - 1) % hh.size < hh.size := Nat.mod_lt _ hb
  constructor
  · unfold ExpandXMD
    rw [checkDST_ok hne, bind_ok_eq]
    unfold ExpandXMDInternal
    have hvet : VetDSTXMD hh dst = .ok dst := by
      unfold VetDSTXMD dstMaxLength
      rw [if_pos hdst]
    rw [hvet, bind_ok_eq]
    rw [if_neg (by push_neg; exact ⟨hell, by omega, by omega⟩)]
    rw [i2osp_two_of_le L hL, bind_ok_eq, dstPrime_of_le hdst, bind_ok_eq]
    unfold xmdSpecOutput
    set dstP := dst ++ [dst.length] with hdstP
    set b0 := hh.H (List.replicate hh.blockSize 0 ++ msg ++ [L / 2 ^ 8, L % 2 ^ 8] ++ [0] ++ dstP)
      with hb0
    set ell := (L + hh.size - 1) / hh.size with hell'
    by_cases h2 : ell < 2
    · rw [if_pos h2]
      interval_cases ell
      · have hL0 : L = 0 := by omega
        simp only [hL0, List.take_zero]
        rfl
      · have hr1 : List.range 1 = [0] := rfl
        simp only [hr1, List.map_cons, List.map_nil, List.flatten_cons,
          List.flatten_nil, List.append_nil]
        rfl
    · rw [if_neg h2]
      have hsteps := xmdSteps_spec hh b0 dstP (ell - 1) (by omega)
      have he : ell - 1 + 1 = ell := by omega
      rw [he] at hsteps
      have hb1 : hh.H (b0 ++ [1] ++ dstP) = xmdSpecBlock hh b0 dstP 1 := rfl
      rw [hb1, hsteps]
      rfl
  · unfold xmdSpecOutput
    set dstP := dst ++ [dst.length]
    set b0 := hh.H (List.replicate hh.blockSize 0 ++ msg ++ [L / 2 ^ 8, L % 2 ^ 8] ++ [0] ++ dstP)
    set ell := (L + hh.size - 1) / hh.size with hell'
    rw [List.length_take]
    have hflat :
        (((List.range ell).map (fun j => xmdSpecBlock hh b0 dstP (j + 1))).flatten).length =
          ell * hh.size := by
      rw [List.length_flatten, List.map_map]
      simp only [Function.comp_def]
      rw [sum_map_const (List.range ell) (fun j => (xmdSpecBlock hh b0 dstP (j + 1)).length)
        hh.size (fun j _ => xmdSpecBlock_length hh b0 dstP hreg (j + 1) (by omega))]
      rw [List.length_range]
    rw [hflat]
    have hLle : L ≤ ell * hh.size := by
      rw [mul_comm]
      omega
    omega

/-- Witness for C3 at a tiny concrete regular hash (digest size 2,
block size 4, constant digest), message `[]`, DST `[3]`, length 3,
which exercises the looping branch (`ell = 2`). -/
theorem claim_c3_expand_xmd_witness :
    ((⟨fun _ => [0, 1], 2, 4⟩ : MDHash).Regular ∧ 0 < (2 : ℕ) ∧
      ([3] : List ℕ) ≠ [] ∧ ([3] : List ℕ).length ≤ 255 ∧
      (3 + 2 - 1) / 2 ≤ 255 ∧ (3 : ℕ) ≤ 65535) ∧
    (ExpandXMD ⟨fun _ => [0, 1], 2, 4⟩ [] [3] 3 =
        .ok (xmdSpecOutput ⟨fun _ => [0, 1], 2, 4⟩ [] [3] 3) ∧
      (xmdSpecOutput ⟨fun _ => [0, 1], 2, 4⟩ [] [3] 3).length = 3) :=
  ⟨⟨fun _ => rfl, by decide, by decide, by decide, by decide, by decide⟩,
    claim_c3_expand_xmd ⟨fun _ => [0, 1], 2, 4⟩ [] [3] 3
      (fun _ => rfl) (by decide) (by decide) (by decide) (by decide) (by decide)⟩

example : ExpandXMD ⟨fun _ => [0, 1], 2, 4⟩ [] [3] 3 = .ok [0, 1, 0] := by decide

/-! ## Expander precondition checks (claim C7) -/

theorem vetDSTXMD_of_le {hh : MDHash} {dst : List ℕ} (h : dst.length ≤ 255) :
    VetDSTXMD hh dst = .ok dst := by
  unfold VetDSTXMD dstMaxLength
  rw [if_pos h]

theorem vetXofDST_of_le {x : XOFHash} {dst : List ℕ} (h : dst.length ≤ 255) :
    VetXofDST x dst = .ok dst := by
  unfold VetXofDST dstMaxLength
  rw [if_pos h]

theorem expandXMDInternal_ok (hh : MDHash) (input dst : List ℕ) (L : ℕ)
    (hdst : dst.length ≤ 255) (hell : (L + hh.size - 1) / hh.size ≤ 255) (hL : L ≤ 65535) :
    ∃ out, ExpandXMDInternal hh input dst L = .ok out := by
  unfold ExpandXMDInternal
  rw [vetDSTXMD_of_le hdst, bind_ok_eq]
  rw [if_neg (by push_neg; exact ⟨hell, by omega, by omega⟩)]
  rw [i2osp_two_of_le L hL, bind_ok_eq, dstPrime_of_le hdst, bind_ok_eq]
  by_cases h2 : (L + hh.size - 1) / hh.size < 2
  · rw [if_pos h2]
    exact ⟨_, rfl⟩
  · rw [if_neg h2]
    exact ⟨_, rfl⟩

theorem expandXMDInternal_err (hh : MDHash) (input dst : List ℕ) (L : ℕ)
    (hdst : dst.length ≤ 255)
    (hcond : 255 < (L + hh.size - 1) / hh.size ∨ 65535 < L) :
    ExpandXMDInternal hh input dst L = .error .lengthTooLarge := by
  unfold ExpandXMDInternal
  rw [vetDSTXMD_of_le hdst, bind_ok_eq]
  rw [if_pos (by rcases hcond with h | h; exacts [Or.inl h, Or.inr (Or.inl h)])]

theorem expandXOFInternal_ok (x : XOFHash) (input dst : List ℕ) (L : ℕ)
    (hdst : dst.length ≤ 255) (hL : L ≤ 65535) :
    ∃ out, ExpandXOFInternal x input dst L = .ok out := by
  unfold ExpandXOFInternal
  rw [if_neg (by omega)]
  rw [vetXofDST_of_le hdst, bind_ok_eq, i2osp_two_of_le L hL, bind_ok_eq,
    i2osp_one_of_le dst.length hdst, bind_ok_eq]
  exact ⟨_, rfl⟩

theorem expandXOFInternal_err (x : XOFHash) (input dst : List ℕ) (L : ℕ)
    (hL : 65535 < L) : ExpandXOFInternal x input dst L = .error .lengthTooLarge := by
  unfold ExpandXOFInternal
  rw [if_pos hL]

/-- Claim C7: with a non-empty, already-vetted DST (length at most
255) and a hash of positive digest size, the public `ExpandXMD`
panics with the requested-length-too-large error exactly when
`ceil(L / b) > 255` or `L > 65535`, `ExpandXOF` panics with the same
error exactly when `L > 65535`, and in all other cases both return
normally. -/
theorem claim_c7_expand_length_checks (hh : MDHash) (x : XOFHash)
    (input dst : List ℕ) (L : ℕ)
    (hne : dst ≠ []) (hdst : dst.length ≤ 255) (_hb : 0 < hh.size) :
    (ExpandXMD hh input dst L = .error .lengthTooLarge ↔
      (255 < (L + hh.size - 1) / hh.size ∨ 65535 < L)) ∧
    (ExpandXOF x input dst L = .error .lengthTooLarge ↔ 65535 < L) ∧
    (¬ (255 < (L + hh.size - 1) / hh.size ∨ 65535 < L) →
      ∃ out, ExpandXMD hh input dst L = .ok out) ∧
    (L ≤ 65535 → ∃ out, ExpandXOF x input dst L = .ok out) := by
  have hxmd : ∀ r, ExpandXMD hh input dst L = r ↔ ExpandXMDInternal hh input dst L = r := by
    intro r
    unfold ExpandXMD
    rw [checkDST_ok hne, bind_ok_eq]
  have hxof : ∀ r, ExpandXOF x input dst L = r ↔ ExpandXOFInternal x input dst L = r := by
    intro r
    unfold ExpandXOF
    rw [checkDST_ok hne, bind_ok_eq]
  refine ⟨?_, ?_, ?_, ?_⟩
  · constructor
    · intro h
      rw [hxmd] at h
      by_contra hc
      push_neg at hc
      obtain ⟨out, hout⟩ := expandXMDInternal_ok hh input dst L hdst (by omega) (by omega)
      rw [hout] at h
      exact Except.noConfusion h
    · intro h
      rw [hxmd]
      exact expandXMDInternal_err hh input dst L hdst h
  · constructor
    · intro h
      rw [hxof] at h
      by_contra hc
      push_neg at hc
      obtain ⟨out, hout⟩ := expandXOFInternal_ok x input dst L hdst (by omega)
      rw [hout] at h
      exact Except.noConfusion h
    · intro h
      rw [hxof]
      exact expandXOFInternal_err x input dst L h
  · intro h
    push_neg at h
    obtain ⟨out, hout⟩ := expandXMDInternal_ok hh input dst L hdst (by omega) (by omega)
    exact ⟨out, (hxmd _).mpr hout⟩
  · intro h
    obtain ⟨out, hout⟩ := expandXOFInternal_ok x input dst L hdst h
    exact ⟨out, (hxof _).mpr hout⟩

/-- Witness for C7 at a length of 70000 (above 65535): both expanders
report the requested-length-too-large panic. -/
theorem claim_c7_expand_length_checks_witness :
    (([3] : List ℕ) ≠ [] ∧ ([3] : List ℕ).length ≤ 255 ∧
      0 < (⟨fun _ => [0, 1], 2, 4⟩ : MDHash).size) ∧
    (ExpandXMD ⟨fun _ => [0, 1], 2, 4⟩ [] [3] 70000 = .error .lengthTooLarge ↔
      (255 < (70000 + 2 - 1) / 2 ∨ 65535 < 70000)) ∧
    (ExpandXOF ⟨fun _ n => List.replicate n 0, 32, 128⟩ [] [3] 70000 =
        .error .lengthTooLarge ↔ 65535 < 70000) :=
  ⟨⟨by decide, by decide, by decide⟩,
    (claim_c7_expand_length_checks ⟨fun _ => [0, 1], 2, 4⟩
        ⟨fun _ n => List.replicate n 0, 32, 128⟩ [] [3] 70000
        (by decide) (by decide) (by decide)).1,
    (claim_c7_expand_length_checks ⟨fun _ => [0, 1], 2, 4⟩
        ⟨fun _ n => List.replicate n 0, 32, 128⟩ [] [3] 70000
        (by decide) (by decide) (by decide)).2.1⟩

/-! ## DST vetting (claim C8) -/

/-- Claim C8: for a hash of digest size at most 255 (and an XOF whose
`ceil(2k/8)`-byte replacement both fits the XOF and a DST length
byte), the vetting functions return the DST unchanged exactly when it
has at most 255 bytes, and a DST of 256 bytes or more is replaced by
the digest of `H2C-OVERSIZE-DST- || DST` (for the XOF variant,
produced at output length `ceil(2k/8)`). -/
theorem claim_c8_vet_dst (hh : MDHash) (x : XOFHash) (dst : List ℕ)
    (hreg : hh.Regular) (hsize : hh.size ≤ 255)
    (xreg : x.Regular) (hxs : (2 * x.k + 7) / 8 ≤ x.size * 8)
    (hx255 : (2 * x.k + 7) / 8 ≤ 255) :
    (VetDSTXMD hh dst = .ok dst ↔ dst.length ≤ 255) ∧
    (255 < dst.length → VetDSTXMD hh dst = .ok (hh.H (dstLongPrefix ++ dst))) ∧
    (VetXofDST x dst = .ok dst ↔ dst.length ≤ 255) ∧
    (255 < dst.length →
      VetXofDST x dst = .ok (x.X (dstLongPrefix ++ dst) ((2 * x.k + 7) / 8))) := by
  have hxmdLong : 255 < dst.length → VetDSTXMD hh dst = .ok (hh.H (dstLongPrefix ++ dst)) := by
    intro hlong
    unfold VetDSTXMD dstMaxLength
    rw [if_neg (by omega), if_neg (by omega)]
  have hxofLong : 255 < dst.length →
      VetXofDST x dst = .ok (x.X (dstLongPrefix ++ dst) ((2 * x.k + 7) / 8)) := by
    intro hlong
    unfold VetXofDST dstMaxLength
    rw [if_neg (by omega)]
    rw [if_neg (by omega)]
  refine ⟨⟨?_, fun h => vetDSTXMD_of_le h⟩, hxmdLong, ⟨?_, fun h => vetXofDST_of_le h⟩, hxofLong⟩
  · intro h
    by_contra hlong
    push_neg at hlong
    rw [hxmdLong hlong] at h
    have hlen : (hh.H (dstLongPrefix ++ dst)).length = dst.length := by
      rw [Except.ok.inj h]
    rw [hreg] at hlen
    omega
  · intro h
    by_contra hlong
    push_neg at hlong
    rw [hxofLong hlong] at h
    have hlen : (x.X (dstLongPrefix ++ dst) ((2 * x.k + 7) / 8)).length = dst.length := by
      rw [Except.ok.inj h]
    rw [xreg] at hlen
    omega

/-- Witness for C8 at a 256-byte DST with the tiny regular hash and a
SHAKE128-shaped XOF (`size = 32`, `k = 128`). -/
theorem claim_c8_vet_dst_witness :
    ((⟨fun _ => [0, 1], 2, 4⟩ : MDHash).Regular ∧ (2 : ℕ) ≤ 255 ∧
      (⟨fun _ n => List.replicate n 0, 32, 128⟩ : XOFHash).Regular ∧
      (2 * 128 + 7) / 8 ≤ 32 * 8 ∧ (2 * 128 + 7) / 8 ≤ 255) ∧
    (VetDSTXMD ⟨fun _ => [0, 1], 2, 4⟩ (List.replicate 256 7) =
        .ok ((⟨fun _ => [0, 1], 2, 4⟩ : MDHash).H (dstLongPrefix ++ List.replicate 256 7)) ∧
      ¬ (VetDSTXMD ⟨fun _ => [0, 1], 2, 4⟩ (List.replicate 256 7) =
          .ok (List.replicate 256 7))) :=
  ⟨⟨fun _ => rfl, by decide, fun inp n => List.length_replicate n 0, by decide, by decide⟩,
    (claim_c8_vet_dst ⟨fun _ => [0, 1], 2, 4⟩ ⟨fun _ n => List.replicate n 0, 32, 128⟩
        (List.replicate 256 7) (fun _ => rfl) (by decide)
        (fun inp n => List.length_replicate n 0) (by decide) (by decide)).2.1
      (by simp),
    fun h =>
      by
        have := (claim_c8_vet_dst ⟨fun _ => [0, 1], 2, 4⟩
            ⟨fun _ n => List.replicate n 0, 32, 128⟩ (List.replicate 256 7) (fun _ => rfl)
            (by decide) (fun inp n => List.length_replicate n 0) (by decide) (by decide)).1.1 h
        simp at this⟩

/-! ## Zero-length DST rejection (claim C9) -/

theorem i2osp_ne_zeroLenDST (v n : ℕ) : I2osp v n ≠ .error .zeroLenDST := by
  unfold I2osp
  split_ifs <;> simp

theorem vetDSTXMD_ne_zeroLenDST (hh : MDHash) (dst : List ℕ) :
    VetDSTXMD hh dst ≠ .error .zeroLenDST := by
  unfold VetDSTXMD
  split_ifs <;> simp

theorem vetXofDST_ne_zeroLenDST (x : XOFHash) (dst : List ℕ) :
    VetXofDST x dst ≠ .error .zeroLenDST := by
  unfold VetXofDST
  dsimp only
  split_ifs <;> simp

theorem dstPrime_ne_zeroLenDST (dst : List ℕ) : DstPrime dst ≠ .error .zeroLenDST := by
  unfold DstPrime
  exact bind_ne_error _ _ (i2osp_ne_zeroLenDST _ _) (fun a => pure_ne_error _ _)

theorem expandXMDInternal_ne_zeroLenDST (hh : MDHash) (input dst : List ℕ) (L : ℕ) :
    ExpandXMDInternal hh input dst L ≠ .error .zeroLenDST := by
  unfold ExpandXMDInternal
  apply bind_ne_error _ _ (vetDSTXMD_ne_zeroLenDST hh dst)
  intro d
  dsimp only
  split_ifs with hc h2
  · simp
  all_goals
    apply bind_ne_error _ _ (i2osp_ne_zeroLenDST _ _)
    intro lib
    apply bind_ne_error _ _ (dstPrime_ne_zeroLenDST _)
    intro dstP
    exact pure_ne_error _ _

theorem expandXOFInternal_ne_zeroLenDST (x : XOFHash) (input dst : List ℕ) (L : ℕ) :
    ExpandXOFInternal x input dst L ≠ .error .zeroLenDST := by
  unfold ExpandXOFInternal
  split_ifs with hc
  · simp
  · apply bind_ne_error _ _ (vetXofDST_ne_zeroLenDST x dst)
    intro d
    apply bind_ne_error _ _ (i2osp_ne_zeroLenDST _ _)
    intro len2o
    apply bind_ne_error _ _ (i2osp_ne_zeroLenDST _ _)
    intro dl
    exact pure_ne_error _ _

/-- Claim C9: for every message, requested length, and abstract hash
or XOF, the public `ExpandXMD` and `ExpandXOF` panic with the
zero-length-DST error on an empty DST — the quantification over the
(arbitrary) hash shows the abort happens before any hashing work —
and never raise this panic for a DST of length one or more. -/
theorem claim_c9_zero_dst (hh : MDHash) (x : XOFHash) (input dst : List ℕ) (L : ℕ) :
    (ExpandXMD hh input [] L = .error .zeroLenDST) ∧
    (ExpandXOF x input [] L = .error .zeroLenDST) ∧
    (dst ≠ [] → ExpandXMD hh input dst L ≠ .error .zeroLenDST) ∧
    (dst ≠ [] → ExpandXOF x input dst L ≠ .error .zeroLenDST) := by
  have hchk : checkDST [] = .error .zeroLenDST := rfl
  refine ⟨?_, ?_, ?_, ?_⟩
  · unfold ExpandXMD
    rw [hchk, bind_error_eq]
  · unfold ExpandXOF
    rw [hchk, bind_error_eq]
  · intro h
    unfold ExpandXMD
    rw [checkDST_ok h, bind_ok_eq]
    exact expandXMDInternal_ne_zeroLenDST hh input dst L
  · intro h
    unfold ExpandXOF
    rw [checkDST_ok h, bind_ok_eq]
    exact expandXOFInternal_ne_zeroLenDST x input dst L

/-! ## hash_to_field (claim C1)

Embedding of `HashToFieldXMD` / `HashToFieldXOF` and `reduceUniform`
(h2f.go).  `reduce` interprets a slice as a big-endian unsigned
integer and reduces it modulo the modulus; Go's `big.Int.Mod` panics
when the modulus is zero. -/

/-- `reduce`: big-endian interpretation followed by `Mod`. -/
def reduce (input : List ℕ) (modulo : ℕ) : Except Err ℕ :=
  if modulo = 0 then .error .divByZero else .ok (os2ip input % modulo)

/-- `reduceUniform`: the loop `for i in range count` reading the
slice `uniform[i*L : (i+1)*L]` and reducing it.  Note the loop runs
`count` times, not `count * ext` times. -/
def reduceUniform (uniform : List ℕ) (count secLength modulo : ℕ) : Except Err (List ℕ) :=
  (List.range count).mapM
    (fun i => reduce ((uniform.drop (i * secLength)).take secLength) modulo)

/-- `HashToFieldXMD`: expand `count * ext * secLength` bytes, then
reduce. -/
def HashToFieldXMD (hh : MDHash) (input dst : List ℕ)
    (count ext secLength modulo : ℕ) : Except Err (List ℕ) := do
  let uniform ← ExpandXMD hh input dst (count * ext * secLength)
  reduceUniform uniform count secLength modulo

/-- `HashToFieldXOF`: expand `count * ext * secLength` bytes with the
XOF, then reduce. -/
def HashToFieldXOF (x : XOFHash) (input dst : List ℕ)
    (count ext secLength modulo : ℕ) : Except Err (List ℕ) := do
  let uniform ← ExpandXOF x input dst (count * ext * secLength)
  reduceUniform uniform count secLength modulo

/-- Counterexample to C1: at `count = 1`, `ext = 2`, per-element
length 1 and modulus 5, `HashToFieldXMD` returns one element, not
`count * ext = 2` of them — `reduceUniform` loops `count` times and
ignores `ext`. -/
theorem claim_c1_counterexample :
    HashToFieldXMD ⟨fun _ => [0, 1], 2, 4⟩ [] [7] 1 2 1 5 = .ok [0] ∧ (1 : ℕ) ≠ 1 * 2 :=
  ⟨by decide, by decide⟩

theorem reduceUniform_ok (uniform : List ℕ) (count secLength modulo : ℕ)
    (h : modulo ≠ 0) :
    reduceUniform uniform count secLength modulo =
      .ok ((List.range count).map
        (fun i => os2ip ((uniform.drop (i * secLength)).take secLength) % modulo)) := by
  unfold reduceUniform reduce
  simp only [if_neg h]
  generalize List.range count = l
  induction l with
  | nil => rfl
  | cons a l ih =>
    rw [List.mapM_cons, ih]
    rfl

/-- Claim C1 as amended: `hash_to_field` requests `count * ext * L`
bytes from the expander but partitions only the first `count * L`
bytes, into `count` contiguous `L`-byte slices; each is interpreted
big-endian and reduced modulo the (prime) modulus, and the `count`
results are returned in order, each in `[0, modulus)`.  Both the XMD
and the XOF variants are covered. -/
theorem claim_c1_amended_hash_to_field (hh : MDHash) (x : XOFHash) (input dst : List ℕ)
    (count ext secLength modulo : ℕ)
    (hmod : Nat.Prime modulo) (hne : dst ≠ []) (hdst : dst.length ≤ 255)
    (hell : (count * ext * secLength + hh.size - 1) / hh.size ≤ 255)
    (hL : count * ext * secLength ≤ 65535) :
    (∃ uniform, ExpandXMD hh input dst (count * ext * secLength) = .ok uniform ∧
      HashToFieldXMD hh input dst count ext secLength modulo =
        .ok ((List.range count).map
          (fun i => os2ip ((uniform.drop (i * secLength)).take secLength) % modulo)) ∧
      ∀ r ∈ (List.range count).map
          (fun i => os2ip ((uniform.drop (i * secLength)).take secLength) % modulo),
        r < modulo) ∧
    (∃ uniform, ExpandXOF x input dst (count * ext * secLength) = .ok uniform ∧
      HashToFieldXOF x input dst count ext secLength modulo =
        .ok ((List.range count).map
          (fun i => os2ip ((uniform.drop (i * secLength)).take secLength) % modulo)) ∧
      ∀ r ∈ (List.range count).map
          (fun i => os2ip ((uniform.drop (i * secLength)).take secLength) % modulo),
        r < modulo) := by
  have hm0 : modulo ≠ 0 := hmod.ne_zero
  have hmpos : 0 < modulo := hmod.pos
  constructor
  · obtain ⟨uniform, hu⟩ : ∃ u, ExpandXMD hh input dst (count * ext * secLength) = .ok u := by
      unfold ExpandXMD
      rw [checkDST_ok hne, bind_ok_eq]
      exact expandXMDInternal_ok hh input dst _ hdst hell hL
    refine ⟨uniform, hu, ?_, ?_⟩
    · unfold HashToFieldXMD
      rw [hu, bind_ok_eq, reduceUniform_ok uniform count secLength modulo hm0]
    · intro r hr
      obtain ⟨i, _, hi⟩ := List.mem_map.mp hr
      rw [← hi]
      exact Nat.mod_lt _ hmpos
  · obtain ⟨uniform, hu⟩ : ∃ u, ExpandXOF x input dst (count * ext * secLength) = .ok u := by
      unfold ExpandXOF
      rw [checkDST_ok hne, bind_ok_eq]
      exact expandXOFInternal_ok x input dst _ hdst hL
    refine ⟨uniform, hu, ?_, ?_⟩
    · unfold HashToFieldXOF
      rw [hu, bind_ok_eq, reduceUniform_ok uniform count secLength modulo hm0]
    · intro r hr
      obtain ⟨i, _, hi⟩ := List.mem_map.mp hr
      rw [← hi]
      exact Nat.mod_lt _ hmpos

/-- Witness for the amended C1 at the counterexample's own input. -/
theorem claim_c1_amended_hash_to_field_witness :
    (Nat.Prime 5 ∧ ([7] : List ℕ) ≠ [] ∧ ([7] : List ℕ).length ≤ 255 ∧
      (1 * 2 * 1 + 2 - 1) / 2 ≤ 255 ∧ 1 * 2 * 1 ≤ 65535) ∧
    (∃ uniform, ExpandXMD ⟨fun _ => [0, 1], 2, 4⟩ [] [7] (1 * 2 * 1) = .ok uniform ∧
      HashToFieldXMD ⟨fun _ => [0, 1], 2, 4⟩ [] [7] 1 2 1 5 =
        .ok ((List.range 1).map
          (fun i => os2ip ((uniform.drop (i * 1)).take 1) % 5)) ∧
      ∀ r ∈ (List.range 1).map (fun i => os2ip ((uniform.drop (i * 1)).take 1) % 5),
        r < 5) :=
  ⟨⟨by norm_num, by decide, by decide, by decide, by decide⟩,
    (claim_c1_amended_hash_to_field ⟨fun _ => [0, 1], 2, 4⟩
      ⟨fun _ n => List.replicate n 0, 32, 128⟩ [] [7] 1 2 1 5
      (by norm_num) (by decide) (by decide) (by decide) (by decide)).1⟩

/-! ## The P-521 descriptors and hash-to-scalar (claim C4)

Embedding of the `nist` package revision whose `initP521` carries the
copy/paste bug: the P-521 group order is written into the P-256
descriptor (`p256.groupOrder = …`), and `HashToScalarP521` performs
no `initOnce` call at all.  The `crypto.Hash` identifier stored in a
descriptor is an opaque code; the digest function it names (SHA-512
externally) is passed in as the abstract hash. -/

/-- The subset of the Go `nistCurve` descriptor state the scalar path
reads: group order, field prime, curve b, map constant z, hash
identifier and security length. -/
structure NistCurveDesc where
  groupOrder : ℕ
  prime : ℕ
  b : ℕ
  z : ℤ
  hashID : ℕ
  secLength : ℕ
deriving DecidableEq, Repr

/-- Go zero value of the descriptor. -/
def zeroDesc : NistCurveDesc := ⟨0, 0, 0, 0, 0, 0⟩

/-- The three package-level descriptors of the `nist` package. -/
structure NistState where
  p256 : NistCurveDesc
  p384 : NistCurveDesc
  p521 : NistCurveDesc
deriving DecidableEq, Repr

/-- Package state before any initializer has run. -/
def initialNistState : NistState := ⟨zeroDesc, zeroDesc, zeroDesc⟩

/-- The bytes of the P-521 field prime as written in `initP521`. -/
def p521PrimeBytes : List ℕ :=
  [1, 255, 255, 255, 255, 255, 255, 255, 255, 255, 255, 255, 255, 255, 255, 255, 255,
    255, 255, 255, 255, 255, 255, 255, 255, 255, 255, 255, 255, 255, 255, 255, 255, 255,
    255, 255, 255, 255, 255, 255, 255, 255, 255, 255, 255, 255, 255, 255, 255, 255,
    255, 255, 255, 255, 255, 255, 255, 255, 255, 255, 255, 255, 255, 255, 255, 255]

/-- The bytes of the P-521 curve coefficient `b` as written in
`initP521`. -/
def p521BBytes : List ℕ :=
  [81, 149, 62, 185, 97, 142, 28, 154, 31, 146, 154, 33, 160, 182, 133, 64,
    238, 162, 218, 114, 91, 153, 179, 21, 243, 184, 180, 137, 145, 142, 241, 9,
    225, 86, 25, 57, 81, 236, 126, 147, 123, 22, 82, 192, 189, 59, 177, 191,
    7, 53, 115, 223, 136, 61, 44, 52, 241, 239, 69, 31, 212, 107, 80, 63, 0]

/-- The bytes of the P-521 group order as written in `initP521`. -/
def p521OrderBytes : List ℕ :=
  [1, 255, 255, 255, 255, 255, 255, 255, 255, 255, 255, 255, 255, 255, 255, 255, 255,
    255, 255, 255, 255, 255, 255, 255, 255, 255, 255, 255, 255, 255, 255, 255, 255, 250,
    81, 134, 135, 131, 191, 47, 150, 107, 127, 204, 1, 72, 247, 9, 165, 208, 59,
    181, 201, 184, 137, 156, 71, 174, 187, 111, 183, 30, 145, 56, 100, 9]

/-- Opaque identifier standing for `crypto.SHA512`. -/
def sha512ID : ℕ := 7

/-- `initP521` of the buggy revision: `setCurveParams` and
`setMapping` populate the P-521 descriptor, but the group-order
assignment reads `p256.groupOrder = …`. -/
def initP521 (s : NistState) : NistState :=
  { s with
    p256 := { s.p256 with groupOrder := os2ip p521OrderBytes }
    p521 := { s.p521 with
      prime := os2ip p521PrimeBytes
      b := os2ip p521BBytes
      z := -4
      hashID := sha512ID
      secLength := 98 } }

/-- `HashToScalarP521` of the buggy revision: no `initOnce`; it reads
whatever is in the P-521 descriptor and reduces modulo its group
order.  `hh` is the digest function named by `p521.hashID`. -/
def HashToScalarP521 (s : NistState) (hh : MDHash) (input dst : List ℕ) : Except Err ℕ := do
  let r ← HashToFieldXMD hh input dst 1 1 s.p521.secLength s.p521.groupOrder
  return r.headI

/-- Claim C4 evaluated on the code: after `initP521` runs, the P-521
descriptor's group order is still the zero value (the order landed in
the P-256 slot), so `HashToScalarP521` reduces modulo zero and panics
(Go `big.Int.Mod` division by zero) instead of returning a scalar in
`[0, q)`; the same happens on the pristine state, which
`HashToScalarP521` — lacking the `initOnce` call — can observe. -/
theorem claim_c4_p521_bug_eval :
    (initP521 initialNistState).p521.groupOrder = 0 ∧
    (initP521 initialNistState).p256.groupOrder = os2ip p521OrderBytes ∧
    HashToScalarP521 (initP521 initialNistState)
      ⟨fun _ => List.replicate 64 0, 64, 128⟩ [] [7] = .error .divByZero ∧
    HashToScalarP521 initialNistState
      ⟨fun _ => List.replicate 64 0, 64, 128⟩ [] [7] = .error .divByZero := by
  refine ⟨rfl, rfl, ?_, ?_⟩ <;> decide

/-- Witness for C9 at the concrete DST `[7]`. -/
theorem claim_c9_zero_dst_witness :
    ([7] : List ℕ) ≠ [] ∧
    (ExpandXMD ⟨fun _ => [0, 1], 2, 4⟩ [] [] 32 = .error .zeroLenDST ∧
      ExpandXMD ⟨fun _ => [0, 1], 2, 4⟩ [] [7] 32 ≠ .error .zeroLenDST) :=
  ⟨by decide,
    (claim_c9_zero_dst ⟨fun _ => [0, 1], 2, 4⟩ ⟨fun _ n => List.replicate n 0, 32, 128⟩
      [] [7] 32).1,
    (claim_c9_zero_dst ⟨fun _ => [0, 1], 2, 4⟩ ⟨fun _ n => List.replicate n 0, 32, 128⟩
      [] [7] 32).2.2.1 (by decide)⟩

/-! ## secp256k1 compressed point encoding (claim C10)

Embedding of `Point.Bytes` (secp256k1 package).  Both coordinates are
canonical field representatives, hence non-negative and below the
field prime, so `big.Int.Sign` is 0 or 1 and
`byte(math.Abs(float64(Sign)))` is that same 0 or 1. -/

/-- The secp256k1 field prime, from the byte literal of the source. -/
def secpPBytes : List ℕ :=
  [255, 255, 255, 255, 255, 255, 255, 255, 255, 255, 255, 255, 255, 255, 255, 255,
    255, 255, 255, 255, 255, 255, 255, 255, 255, 255, 255, 254, 255, 255, 252, 47]

/-- The secp256k1 field prime as an integer. -/
def secpP : ℕ := os2ip secpPBytes

/-- `Point.Bytes`: one prefix byte, then the 32-byte big-endian
`FillBytes` image of `X`.  `nonZero = |sign X| & |sign Y|`,
`sign = 2 | (bit0 Y & 1)`, and the prefix is `(nonZero * sign) & 3`. -/
def PointBytes (X Y : ℕ) : List ℕ :=
  let nonZero := Nat.land (if X = 0 then 0 else 1) (if Y = 0 then 0 else 1)
  let sign := Nat.lor 2 (Nat.land (Y % 2) 1)
  Nat.land (nonZero * sign) 3 :: fillBytes 32 X

theorem fillBytes_succ (w x : ℕ) :
    fillBytes (w + 1) x = x / 2 ^ (8 * w) % 2 ^ 8 :: fillBytes w x := rfl

theorem os2ip_cons (b : ℕ) (l : List ℕ) : os2ip (b :: l) = b * 256 ^ l.length + os2ip l := by
  have h := os2ip_append [b] l
  simpa [os2ip] using h

theorem length_fillBytes (w x : ℕ) : (fillBytes w x).length = w := by
  induction w generalizing x with
  | zero => rfl
  | succ w ih => simp [fillBytes, ih]

theorem os2ip_fillBytes (w x : ℕ) : os2ip (fillBytes w x) = x % 2 ^ (8 * w) := by
  induction w generalizing x with
  | zero => simp [fillBytes, os2ip, Nat.mod_one]
  | succ w ih =>
    rw [fillBytes_succ, os2ip_cons, length_fillBytes, ih]
    have hpow : (2 : ℕ) ^ (8 * (w + 1)) = 2 ^ (8 * w) * 2 ^ 8 := by
      rw [show 8 * (w + 1) = 8 * w + 8 by ring, pow_add]
    rw [hpow, Nat.mod_mul]
    have h256 : (256 : ℕ) ^ w = 2 ^ (8 * w) := by
      rw [show (256 : ℕ) = 2 ^ 8 from by norm_num, ← pow_mul]
    rw [h256]
    ring

/-- Claim C10: for canonical coordinates `X, Y < p`, `Point.Bytes`
returns exactly 33 bytes; the first byte is 0 exactly when `X = 0` or
`Y = 0` (the identity sentinel) and otherwise 2 for even `Y` and 3
for odd `Y`; the remaining 32 bytes are the big-endian,
left-zero-padded encoding of `X` (decoding back to `X`). -/
theorem claim_c10_point_bytes (X Y : ℕ) (hX : X < secpP) (_hY : Y < secpP) :
    (PointBytes X Y).length = 33 ∧
    (PointBytes X Y).headI = (if X = 0 ∨ Y = 0 then 0 else if Y % 2 = 0 then 2 else 3) ∧
    (PointBytes X Y).tail = fillBytes 32 X ∧
    os2ip ((PointBytes X Y).tail) = X := by
  have hXb : X < 2 ^ (8 * 32) := lt_of_lt_of_le hX (by unfold secpP secpPBytes; decide)
  have htail : (PointBytes X Y).tail = fillBytes 32 X := rfl
  refine ⟨?_, ?_, htail, ?_⟩
  · show (_ :: fillBytes 32 X).length = 33
    rw [List.length_cons, length_fillBytes]
  · show Nat.land (Nat.land (if X = 0 then 0 else 1) (if Y = 0 then 0 else 1) *
      Nat.lor 2 (Nat.land (Y % 2) 1)) 3 = _
    by_cases hx0 : X = 0
    · rw [if_pos (Or.inl hx0), if_pos hx0]
      have e0 : Nat.land 0 (if Y = 0 then (0 : ℕ) else 1) = 0 := Nat.zero_and _
      rw [e0, Nat.zero_mul]
      rfl
    · by_cases hy0 : Y = 0
      · rw [if_pos (Or.inr hy0), if_neg hx0, if_pos hy0]
        have e0 : Nat.land 1 0 = 0 := Nat.and_zero _
        rw [e0, Nat.zero_mul]
        rfl
      · rw [if_neg (by tauto : ¬ (X = 0 ∨ Y = 0)), if_neg hx0, if_neg hy0]
        rcases Nat.mod_two_eq_zero_or_one Y with h | h
        · rw [h, if_pos rfl]
          decide
        · rw [h, if_neg (by omega)]
          decide
  · rw [htail, os2ip_fillBytes, Nat.mod_eq_of_lt hXb]

/-- Witness for C10 at the point `(5, 12)`: even `Y`, prefix byte 2. -/
theorem claim_c10_point_bytes_witness :
    ((5 : ℕ) < secpP ∧ (12 : ℕ) < secpP) ∧
    ((PointBytes 5 12).length = 33 ∧
      (PointBytes 5 12).headI = (if (5 : ℕ) = 0 ∨ (12 : ℕ) = 0 then 0
        else if (12 : ℕ) % 2 = 0 then 2 else 3) ∧
      (PointBytes 5 12).tail = fillBytes 32 5 ∧
      os2ip ((PointBytes 5 12).tail) = 5) :=
  ⟨⟨by decide, by decide⟩, claim_c10_point_bytes 5 12 (by decide) (by decide)⟩

example : PointBytes 5 12 =
    .cons 2 (List.replicate 31 0 ++ [5]) := by decide

/-! ## The big.Int field façade and SSWU (claim C2)

Embedding of the `field` package over `ZMod p` and of
`MapToCurveSSWU` (nist/internal/mapping.go).  The façade computes
inversion, the Legendre symbol and the square root by modular
exponentiation with the precomputed exponents `p - 2`, `(p - 1) >> 1`
and `(p + 1) >> 2`; the embedding keeps those exponentiations
verbatim.  All claims are proved for an arbitrary prime `p ≡ 3 mod 4`
with the RFC's conditions on the ciphersuite constants, which the
registered ciphersuites satisfy. -/

section FieldOps

variable (p : ℕ)

/-- `Field.Inv`: inversion by Fermat, `x ^ (p - 2)`. -/
def finv (x : ZMod p) : ZMod p := x ^ (p - 2)

/-- `Field.LegendreSymbol`: `x ^ ((p - 1) / 2)` (the precomputed
`pMinus1div2` is `p - 1` shifted right once). -/
def legendreF (x : ZMod p) : ZMod p := x ^ ((p - 1) / 2)

/-- `Field.SquareRoot` via `sqrt3mod4`: `x ^ ((p + 1) / 4)` (the
precomputed `exp` is `p + 1` shifted right twice). -/
def sqrtF (x : ZMod p) : ZMod p := x ^ ((p + 1) / 4)

/-- `Field.Sgn0`: the lowest bit of the canonical representative. -/
def sgn0F (x : ZMod p) : ℕ := x.val % 2

/-- `Field.SqrtRatio`: `res = Inv(v) * e`; `square = IsSquare(res)`
(`AreEqual(LegendreSymbol res, 1)`); if not a square, multiply by the
map constant `z`; then take the square root and report squareness. -/
def sqrtRatioF (z e v : ZMod p) : Bool × ZMod p :=
  let r := finv p v * e
  if legendreF p r = 1 then (true, sqrtF p r) else (false, sqrtF p (r * z))

/-- `MapToCurveSSWU` (RFC 9380 §6.6.2), steps numbered as in the
source; `CondMov(tv4, z, -tv2, tv2 ≠ 0)` becomes the conditional in
step 7–8, and the final `y` keeps or negates the candidate per the
`sgn0` agreement of step 23–24. -/
def MapToCurveSSWU (a b z u : ZMod p) : ZMod p × ZMod p :=
  let tv1 := z * u ^ 2                                  -- steps 1-2
  let tv2 := tv1 ^ 2 + tv1                              -- steps 3-4
  let tv3 := b * (tv2 + 1)                              -- steps 5-6
  let tv4 := a * (if tv2 ≠ 0 then -tv2 else z)          -- steps 7-8
  let tv2a := tv3 ^ 2                                   -- step 9
  let tv6 := tv4 ^ 2                                    -- step 10
  let tv5 := a * tv6                                    -- step 11
  let tv2b := (tv2a + tv5) * tv3                        -- steps 12-13
  let tv6a := tv6 * tv4                                 -- step 14
  let tv5a := b * tv6a                                  -- step 15
  let num := tv2b + tv5a                                -- step 16
  let x0 := tv1 * tv3                                   -- step 17
  let sr := sqrtRatioF p z num tv6a                     -- step 18
  let y0 := tv1 * u * sr.2                              -- steps 19-20
  let x1 := if sr.1 then tv3 else x0                    -- step 21
  let y1 := if sr.1 then sr.2 else y0                   -- step 22
  let y2 := if sgn0F p u = sgn0F p y1 then y1 else -y1  -- steps 23-24
  (x1 * finv p tv4, y2)                                 -- steps 25-26

/-- The short Weierstrass right-hand side `x^3 + A x + B`. -/
def gval (a b x : ZMod p) : ZMod p := x ^ 3 + a * x + b

end FieldOps

section FieldLemmas

variable (p : ℕ) [Fact p.Prime]

theorem finv_eq_inv (hp2 : p ≠ 2) (x : ZMod p) : finv p x = x⁻¹ := by
  have hp := (Fact.out : p.Prime)
  have hge := hp.two_le
  by_cases hx : x = 0
  · rw [hx]
    unfold finv
    rw [zero_pow (by omega : p - 2 ≠ 0), inv_zero]
  · have h1 : x ^ (p - 1) = 1 := ZMod.pow_card_sub_one_eq_one hx
    have h2 : x * x ^ (p - 2) = 1 := by
      rw [← pow_succ']
      rw [show p - 2 + 1 = p - 1 by omega]
      exact h1
    unfold finv
    exact eq_inv_of_mul_eq_one_left (by rw [mul_comm] at h2; exact h2)

theorem legendreF_zero (hp2 : p ≠ 2) : legendreF p 0 = 0 := by
  have hp := (Fact.out : p.Prime)
  have hge := hp.two_le
  unfold legendreF
  have hne : (p - 1) / 2 ≠ 0 := by omega
  exact zero_pow hne

theorem legendreF_eq_one_iff (hp2 : p ≠ 2) (x : ZMod p) (hx : x ≠ 0) :
    legendreF p x = 1 ↔ IsSquare x := by
  have hp := (Fact.out : p.Prime)
  have hodd : p % 2 = 1 := hp.eq_two_or_odd.resolve_left hp2
  have he : (p - 1) / 2 = p / 2 := by omega
  unfold legendreF
  rw [he]
  exact (ZMod.euler_criterion p hx).symm

theorem legendreF_pm (hp2 : p ≠ 2) (x : ZMod p) (hx : x ≠ 0) :
    legendreF p x = 1 ∨ legendreF p x = -1 := by
  have hp := (Fact.out : p.Prime)
  have hodd : p % 2 = 1 := hp.eq_two_or_odd.resolve_left hp2
  have he : (p - 1) / 2 = p / 2 := by omega
  unfold legendreF
  rw [he]
  exact ZMod.pow_div_two_eq_neg_one_or_one p hx

theorem sqrtF_sq (hp4 : p % 4 = 3) (x : ZMod p) (hx : IsSquare x) :
    sqrtF p x ^ 2 = x := by
  have hp := (Fact.out : p.Prime)
  have hge : 2 ≤ p := hp.two_le
  have hp2 : p ≠ 2 := by omega
  by_cases h0 : x = 0
  · rw [h0]
    unfold sqrtF
    rw [zero_pow (by omega : (p + 1) / 4 ≠ 0)]
    exact zero_pow (by norm_num)
  · unfold sqrtF
    rw [← pow_mul]
    have hdiv : (p + 1) / 4 * 2 = (p - 1) / 2 + 1 := by omega
    rw [hdiv, pow_succ]
    have hleg := (legendreF_eq_one_iff p hp2 x h0).mpr hx
    unfold legendreF at hleg
    rw [hleg, one_mul]

theorem nonsquare_mul_nonsquare (hp2 : p ≠ 2) (x y : ZMod p)
    (hx0 : x ≠ 0) (hy0 : y ≠ 0) (hx : ¬ IsSquare x) (hy : ¬ IsSquare y) :
    IsSquare (x * y) := by
  have hxm : legendreF p x = -1 :=
    (legendreF_pm p hp2 x hx0).resolve_left
      (fun h => hx ((legendreF_eq_one_iff p hp2 x hx0).mp h))
  have hym : legendreF p y = -1 :=
    (legendreF_pm p hp2 y hy0).resolve_left
      (fun h => hy ((legendreF_eq_one_iff p hp2 y hy0).mp h))
  have hxy0 : x * y ≠ 0 := mul_ne_zero hx0 hy0
  apply (legendreF_eq_one_iff p hp2 _ hxy0).mp
  unfold legendreF at hxm hym ⊢
  rw [mul_pow, hxm, hym, neg_mul_neg, one_mul]

theorem square_mul_nonsquare (x y : ZMod p)
    (hx0 : x ≠ 0) (hxs : IsSquare x) (hy : ¬ IsSquare y) :
    ¬ IsSquare (x * y) := by
  intro hxy
  apply hy
  have hxi : IsSquare x⁻¹ := by
    obtain ⟨s, hs⟩ := hxs
    exact ⟨s⁻¹, by rw [hs, mul_inv]⟩
  have hrw : y = x⁻¹ * (x * y) := by
    field_simp
  rw [hrw]
  exact hxi.mul hxy

theorem sswu_r_eq (a b tv3 tv4 : ZMod p) (h4 : tv4 ≠ 0) :
    (tv4 ^ 2 * tv4)⁻¹ * ((tv3 ^ 2 + a * tv4 ^ 2) * tv3 + b * (tv4 ^ 2 * tv4)) =
      gval p a b (tv3 * tv4⁻¹) := by
  unfold gval
  field_simp
  ring

theorem sswu_identity (a b t x1 : ZMod p)
    (hx1 : x1 * (a * -(t ^ 2 + t)) = b * (t ^ 2 + t + 1)) :
    gval p a b (t * x1) = t ^ 3 * gval p a b x1 := by
  unfold gval
  linear_combination (t - 1) * hx1

end FieldLemmas

/-- Claim C2: for every prime `p ≡ 3 mod 4`, nonzero mapping-curve
parameters `A`, `B`, map constant `Z` as the ciphersuites fix it (a
non-square with `g(B / (A Z))` a nonzero square, RFC 9380's
conditions on `Z`), and every `u`, `MapToCurveSSWU` returns — it is a
total function built from total field operations, so it returns
normally on every input — a pair `(x, y)` with
`y² = x³ + A·x + B`. -/
theorem claim_c2_sswu_on_curve (p : ℕ) [Fact p.Prime] (hp4 : p % 4 = 3)
    (A B Z u : ZMod p) (hA : A ≠ 0) (_hB : B ≠ 0) (hZ : ¬ IsSquare Z)
    (hZg1 : IsSquare (gval p A B (B * (A * Z)⁻¹)))
    (hZg2 : gval p A B (B * (A * Z)⁻¹) ≠ 0) :
    (MapToCurveSSWU p A B Z u).2 ^ 2 =
      (MapToCurveSSWU p A B Z u).1 ^ 3 + A * (MapToCurveSSWU p A B Z u).1 + B := by
  have hp := (Fact.out : p.Prime)
  have hp2 : p ≠ 2 := by omega
  have hZ0 : Z ≠ 0 := fun h => hZ (by rw [h]; exact ⟨0, by ring⟩)
  show (MapToCurveSSWU p A B Z u).2 ^ 2 = gval p A B (MapToCurveSSWU p A B Z u).1
  unfold MapToCurveSSWU sqrtRatioF
  dsimp only
  set t := Z * u ^ 2 with ht
  set d := t ^ 2 + t with hd
  set tv3 := B * (d + 1) with htv3
  by_cases hd0 : d = 0
  · simp only [if_neg (show ¬ d ≠ 0 from fun hne => hne hd0)]
    set tv4 := A * Z with htv4
    have h40 : tv4 ≠ 0 := mul_ne_zero hA hZ0
    have hr : finv p (tv4 ^ 2 * tv4) *
        ((tv3 ^ 2 + A * tv4 ^ 2) * tv3 + B * (tv4 ^ 2 * tv4)) =
        gval p A B (tv3 * tv4⁻¹) := by
      rw [finv_eq_inv p hp2]
      exact sswu_r_eq p A B tv3 tv4 h40
    rw [hr]
    have htv3B : tv3 = B := by rw [htv3, hd0, zero_add, mul_one]
    have hrval : gval p A B (tv3 * tv4⁻¹) = gval p A B (B * (A * Z)⁻¹) := by
      rw [htv3B, htv4]
    have hleg : legendreF p (gval p A B (tv3 * tv4⁻¹)) = 1 := by
      rw [hrval]
      exact (legendreF_eq_one_iff p hp2 _ hZg2).mpr hZg1
    rw [if_pos hleg]
    show (if sgn0F p u = sgn0F p (sqrtF p (gval p A B (tv3 * tv4⁻¹)))
        then sqrtF p (gval p A B (tv3 * tv4⁻¹))
        else -sqrtF p (gval p A B (tv3 * tv4⁻¹))) ^ 2 =
      gval p A B (tv3 * finv p tv4)
    have hrs : IsSquare (gval p A B (tv3 * tv4⁻¹)) := by rw [hrval]; exact hZg1
    have hsq := sqrtF_sq p hp4 _ hrs
    rw [finv_eq_inv p hp2]
    split_ifs with hsgn
    · rw [hsq]
    · rw [neg_sq, hsq]
  · simp only [if_pos (show d ≠ 0 from hd0)]
    set tv4 := A * -d with htv4
    have h40 : tv4 ≠ 0 := mul_ne_zero hA (by simpa using hd0)
    have hr : finv p (tv4 ^ 2 * tv4) *
        ((tv3 ^ 2 + A * tv4 ^ 2) * tv3 + B * (tv4 ^ 2 * tv4)) =
        gval p A B (tv3 * tv4⁻¹) := by
      rw [finv_eq_inv p hp2]
      exact sswu_r_eq p A B tv3 tv4 h40
    rw [hr]
    have hident : gval p A B (t * (tv3 * tv4⁻¹)) =
        t ^ 3 * gval p A B (tv3 * tv4⁻¹) := by
      apply sswu_identity
      rw [← hd, ← htv4, inv_mul_cancel_right₀ h40, htv3]
    by_cases hleg : legendreF p (gval p A B (tv3 * tv4⁻¹)) = 1
    · rw [if_pos hleg]
      show (if sgn0F p u = sgn0F p (sqrtF p (gval p A B (tv3 * tv4⁻¹)))
          then sqrtF p (gval p A B (tv3 * tv4⁻¹))
          else -sqrtF p (gval p A B (tv3 * tv4⁻¹))) ^ 2 =
        gval p A B (tv3 * finv p tv4)
      have hr0 : gval p A B (tv3 * tv4⁻¹) ≠ 0 := by
        intro h
        rw [h, legendreF_zero p hp2] at hleg
        exact zero_ne_one hleg
      have hrs : IsSquare (gval p A B (tv3 * tv4⁻¹)) :=
        (legendreF_eq_one_iff p hp2 _ hr0).mp hleg
      have hsq := sqrtF_sq p hp4 _ hrs
      rw [finv_eq_inv p hp2]
      split_ifs with hsgn
      · rw [hsq]
      · rw [neg_sq, hsq]
    · rw [if_neg hleg]
      show (if sgn0F p u = sgn0F p (t * u * sqrtF p (gval p A B (tv3 * tv4⁻¹) * Z))
          then t * u * sqrtF p (gval p A B (tv3 * tv4⁻¹) * Z)
          else -(t * u * sqrtF p (gval p A B (tv3 * tv4⁻¹) * Z))) ^ 2 =
        gval p A B (t * tv3 * finv p tv4)
      rw [finv_eq_inv p hp2]
      have hxmul : t * tv3 * tv4⁻¹ = t * (tv3 * tv4⁻¹) := by ring
      by_cases hr0 : gval p A B (tv3 * tv4⁻¹) = 0
      · have hs0 : sqrtF p (gval p A B (tv3 * tv4⁻¹) * Z) = 0 := by
          rw [hr0, zero_mul]
          unfold sqrtF
          exact zero_pow (by omega : (p + 1) / 4 ≠ 0)
        rw [hs0]
        rw [hxmul, hident, hr0]
        split_ifs with hsgn <;> ring
      · have hrns : ¬ IsSquare (gval p A B (tv3 * tv4⁻¹)) :=
          fun h => hleg ((legendreF_eq_one_iff p hp2 _ hr0).mpr h)
        have hsqZ : IsSquare (gval p A B (tv3 * tv4⁻¹) * Z) :=
          nonsquare_mul_nonsquare p hp2 _ Z hr0 hZ0 hrns hZ
        have hsq := sqrtF_sq p hp4 _ hsqZ
        rw [hxmul, hident]
        have htcube : t ^ 2 * u ^ 2 * Z = t ^ 3 := by rw [ht]; ring
        split_ifs with hsgn
        · rw [mul_pow, mul_pow, hsq]
          rw [ht]
          ring
        · rw [neg_sq, mul_pow, mul_pow, hsq, ht]
          ring

instance instDecidableIsSquareZMod (n : ℕ) [NeZero n] :
    DecidablePred (fun a : ZMod n => IsSquare a) := fun a =>
  decidable_of_iff (∃ r : ZMod n, a = r * r) Iff.rfl

/-- Witness for C2 over the field with 19 elements (`19 ≡ 3 mod 4`),
mapping parameters `A = B = 1`, map constant `Z = 2` (a non-square
mod 19 with `g(B/(A·Z)) = g(10) = 4`, a nonzero square), input
`u = 3`. -/
instance instFactPrime19 : Fact (Nat.Prime 19) := ⟨by norm_num⟩

theorem claim_c2_sswu_on_curve_witness :
    (Nat.Prime 19 ∧ 19 % 4 = 3 ∧ (1 : ZMod 19) ≠ 0 ∧ ¬ IsSquare (2 : ZMod 19) ∧
      IsSquare (gval 19 1 1 (1 * ((1 : ZMod 19) * 2)⁻¹)) ∧
      gval 19 1 1 (1 * ((1 : ZMod 19) * 2)⁻¹) ≠ 0) ∧
    (MapToCurveSSWU 19 1 1 2 3).2 ^ 2 =
      (MapToCurveSSWU 19 1 1 2 3).1 ^ 3 + 1 * (MapToCurveSSWU 19 1 1 2 3).1 + 1 := by
  have h19 : Nat.Prime 19 := by norm_num
  have hmul : (2 : ZMod 19) * 10 = 1 := by decide
  have hinv : ((1 : ZMod 19) * 2)⁻¹ = 10 := by
    rw [one_mul]
    exact inv_eq_of_mul_eq_one_right hmul
  have hA : (1 : ZMod 19) ≠ 0 := by decide
  have hZns : ¬ IsSquare (2 : ZMod 19) := by decide
  have hg1 : IsSquare (gval 19 1 1 (1 * ((1 : ZMod 19) * 2)⁻¹)) := by
    rw [hinv]
    decide
  have hg2 : gval 19 1 1 (1 * ((1 : ZMod 19) * 2)⁻¹) ≠ 0 := by
    rw [hinv]
    decide
  exact ⟨⟨h19, by norm_num, hA, hZns, hg1, hg2⟩,
    claim_c2_sswu_on_curve 19 (by norm_num) 1 1 2 3 hA hA hZns hg1 hg2⟩

/-! ## A Pratt certificate for the edwards25519 field prime

Claim C5 is about arithmetic in `F_(2^255 - 19)`; the branch analysis
of Elligator 2 needs this modulus to be prime (Euler's criterion and
the two-cosets structure of the squares).  The primality is proved by
Lucas certificates (`lucas_primality`) down a chain of helper primes,
with the modular exponentiations checked by the kernel through a
fuelled square-and-multiply `powModF`. -/

def powModF : ℕ → ℕ → ℕ → ℕ → ℕ
  | 0, _, _, m => 1 % m
  | fuel + 1, b, e, m =>
    if e = 0 then 1 % m
    else
      let h := powModF fuel (b * b % m) (e / 2) m
      if e % 2 = 1 then h * b % m else h

theorem powModF_eq (m : ℕ) :
    ∀ fuel b e, e < 2 ^ fuel → powModF fuel b e m = b ^ e % m := by
  intro fuel
  induction fuel with
  | zero =>
    intro b e he
    interval_cases e
    simp [powModF]
  | succ n ih =>
    intro b e he
    rw [powModF]
    by_cases h0 : e = 0
    · simp [h0]
    · simp only [h0, if_false]
      have he2 : e / 2 < 2 ^ n := by
        rw [Nat.div_lt_iff_lt_mul (by norm_num)]
        calc e < 2 ^ (n + 1) := he
          _ = 2 ^ n * 2 := by ring
      rw [ih (b * b % m) (e / 2) he2]
      have key : (b * b % m) ^ (e / 2) % m = b ^ (2 * (e / 2)) % m := by
        rw [← Nat.pow_mod, ← pow_two, ← pow_mul]
      by_cases hp : e % 2 = 1
      · simp only [hp, if_true]
        rw [key, Nat.mod_mul_mod]
        conv_rhs => rw [show e = 2 * (e / 2) + 1 by omega]
        rw [pow_succ]
      · simp only [hp, if_false]
        rw [key]
        congr 2
        omega

theorem zmod_pow_cast (q b e : ℕ) (he : e < 2 ^ 300) :
    (b : ZMod q) ^ e = ((powModF 300 b e q : ℕ) : ZMod q) := by
  rw [powModF_eq q 300 b e he, ZMod.natCast_mod, Nat.cast_pow]

theorem zmod_pow_eq_one (q b e : ℕ) (he : e < 2 ^ 300)
    (h : powModF 300 b e q = 1) : (b : ZMod q) ^ e = 1 := by
  rw [zmod_pow_cast q b e he, h, Nat.cast_one]

theorem zmod_pow_ne_one (q b e : ℕ) (hq : 1 < q) (he : e < 2 ^ 300)
    (h : powModF 300 b e q ≠ 1) : (b : ZMod q) ^ e ≠ 1 := by
  rw [zmod_pow_cast q b e he]
  intro hc
  apply h
  have hlt : powModF 300 b e q < q := by
    rw [powModF_eq q 300 b e he]
    exact Nat.mod_lt _ (by omega)
  haveI : Fact (1 < q) := ⟨hq⟩
  have hv := congrArg ZMod.val hc
  rw [ZMod.val_cast_of_lt hlt, ZMod.val_one] at hv
  exact hv

/-- Product of a list of prime powers. -/
def pfProd (l : List (ℕ × ℕ)) : ℕ := l.foldr (fun pe acc => pe.1 ^ pe.2 * acc) 1

theorem prime_dvd_pfProd (r : ℕ) (hr : r.Prime) :
    ∀ l : List (ℕ × ℕ), r ∣ pfProd l → ∃ pe ∈ l, r ∣ pe.1 := by
  intro l
  induction l with
  | nil =>
    intro h
    simp only [pfProd, List.foldr_nil] at h
    exact absurd (Nat.dvd_one.mp h) hr.ne_one
  | cons pe l ih =>
    intro h
    have hsplit : r ∣ pe.1 ^ pe.2 ∨ r ∣ pfProd l := (Nat.Prime.dvd_mul hr).mp h
    rcases hsplit with h1 | h2
    · exact ⟨pe, by simp, hr.dvd_of_dvd_pow h1⟩
    · obtain ⟨qe, hm, hd⟩ := ih h2
      exact ⟨qe, by simp [hm], hd⟩

/-- A packaged Lucas certificate: a witness of full order together
with the complete factorization of `q - 1` into prime powers proves
`q` prime. -/
theorem lucas_cert (q a : ℕ) (fs : List (ℕ × ℕ))
    (hq : 1 < q) (he : q - 1 < 2 ^ 300)
    (hfact : q - 1 = pfProd fs)
    (hprime : ∀ pe ∈ fs, Nat.Prime pe.1)
    (h1 : powModF 300 a (q - 1) q = 1)
    (hne : ∀ pe ∈ fs, powModF 300 a ((q - 1) / pe.1) q ≠ 1) :
    Nat.Prime q := by
  apply lucas_primality q (a : ZMod q) (zmod_pow_eq_one q a (q - 1) he h1)
  intro r hr hdvd
  obtain ⟨pe, hmem, hdr⟩ := prime_dvd_pfProd r hr fs (hfact ▸ hdvd)
  have hreq : r = pe.1 := (Nat.prime_dvd_prime_iff_eq hr (hprime pe hmem)).mp hdr
  rw [hreq]
  exact zmod_pow_ne_one q a ((q - 1) / pe.1) hq
    (lt_of_le_of_lt (Nat.div_le_self _ _) he) (hne pe hmem)

theorem prime_2773320623 : Nat.Prime 2773320623 := by
  apply lucas_cert 2773320623 5 [(2, 1), (2437, 1), (569003, 1)]
  · decide
  · decide
  · decide
  · intro pe hpe
    fin_cases hpe <;> norm_num
  · decide
  · intro pe hpe
    fin_cases hpe <;> decide

theorem prime_72106336199 : Nat.Prime 72106336199 := by
  apply lucas_cert 72106336199 7 [(2, 1), (13, 1), (2773320623, 1)]
  · decide
  · decide
  · decide
  · intro pe hpe
    fin_cases hpe
    · norm_num
    · norm_num
    · exact prime_2773320623
  · decide
  · intro pe hpe
    fin_cases hpe <;> decide

theorem prime_1919519569386763 : Nat.Prime 1919519569386763 := by
  apply lucas_cert 1919519569386763 2
    [(2, 1), (3, 1), (7, 1), (19, 1), (47, 2), (127, 1), (8574133, 1)]
  · decide
  · decide
  · decide
  · intro pe hpe
    fin_cases hpe <;> norm_num
  · decide
  · intro pe hpe
    fin_cases hpe <;> decide

theorem prime_31757755568855353 : Nat.Prime 31757755568855353 := by
  apply lucas_cert 31757755568855353 10
    [(2, 3), (3, 1), (31, 1), (107, 1), (223, 1), (4153, 1), (430751, 1)]
  · decide
  · decide
  · decide
  · intro pe hpe
    fin_cases hpe <;> norm_num
  · decide
  · intro pe hpe
    fin_cases hpe <;> decide

theorem prime_q2_75445702479781427272750846543864801 :
    Nat.Prime 75445702479781427272750846543864801 := by
  apply lucas_cert 75445702479781427272750846543864801 7
    [(2, 5), (3, 2), (5, 2), (75707, 1), (72106336199, 1), (1919519569386763, 1)]
  · decide
  · decide
  · decide
  · intro pe hpe
    fin_cases hpe
    · norm_num
    · norm_num
    · norm_num
    · norm_num
    · exact prime_72106336199
    · exact prime_1919519569386763
  · decide
  · intro pe hpe
    fin_cases hpe <;> decide

theorem prime_q1 :
    Nat.Prime
      74058212732561358302231226437062788676166966415465897661863160754340907 := by
  apply lucas_cert
    74058212732561358302231226437062788676166966415465897661863160754340907 2
    [(2, 1), (3, 1), (353, 1), (57467, 1), (132049, 1), (1923133, 1),
      (31757755568855353, 1), (75445702479781427272750846543864801, 1)]
  · decide
  · decide
  · decide
  · intro pe hpe
    fin_cases hpe
    · norm_num
    · norm_num
    · norm_num
    · norm_num
    · norm_num
    · norm_num
    · exact prime_31757755568855353
    · exact prime_q2_75445702479781427272750846543864801
  · decide
  · intro pe hpe
    fin_cases hpe <;> decide

/-- The edwards25519 base-field prime `2^255 - 19`. -/
def p25519 : ℕ := 2 ^ 255 - 19

theorem prime_p25519 : Nat.Prime p25519 := by
  apply lucas_cert p25519 2
    [(2, 2), (3, 1), (65147, 1),
      (74058212732561358302231226437062788676166966415465897661863160754340907, 1)]
  · decide
  · decide
  · decide
  · intro pe hpe
    fin_cases hpe
    · norm_num
    · norm_num
    · norm_num
    · exact prime_q1
  · decide
  · intro pe hpe
    fin_cases hpe <;> decide

instance instFactPrimeP25519 : Fact (Nat.Prime p25519) := ⟨prime_p25519⟩

instance instNeZeroP25519 : NeZero p25519 := ⟨by decide⟩

/-! ## The edwards25519 Elligator 2 step (claim C5)

Embedding of `Elligator2Montgomery` (edwards25519/edwards22519.go).
The `field.Element` operations come from the external
filippo.io/edwards25519 library and are modelled over
`ZMod (2^255 - 19)` by their documented contracts: `Invert` is
`z^(p-2)` (zero at zero), `Equal` compares, `Swap` conditionally
swaps, and `SqrtRatio(u, v)` returns the non-negative square root of
`u/v` with flag 1 when `u/v` is square, and the non-negative square
root of `SQRT_M1 * u/v` with flag 0 otherwise. -/

namespace Ed25519

/-- The prime field `F_(2^255 - 19)`. -/
abbrev F := ZMod p25519

/-- The Montgomery constant `A = 486662` (the little-endian byte
literal `06 6d 07 00 …` of the source). -/
def A : F := 486662

/-- The non-negative (even-representative) square root returned by
filippo's `SqrtRatio` when the ratio is a square: the first `i < p`
with `i² = a` and `i` even, or `0` when there is none. -/
def posSqrt (a : F) : F :=
  ((((List.range p25519).find?
    (fun i : ℕ => decide (((i : ℕ) : F) * ((i : ℕ) : F) = a ∧ i % 2 = 0))).getD 0 : ℕ) : F)

/-- The constant `SQRT_M1`, the non-negative square root of `-1`. -/
def sqrtM1 : F := posSqrt (-1)

/-- `field.Element.SqrtRatio` by its documented contract. -/
def sqrtRatio25519 (u v : F) : F × ℕ :=
  if IsSquare (u * v⁻¹) then (posSqrt (u * v⁻¹), 1)
  else (posSqrt (sqrtM1 * (u * v⁻¹)), 0)

/-- `Elligator2Montgomery`, operation for operation: `t1 = 2u²`,
zeroed by `Swap` when it equals `-1`; `x1 = -A / (t1 + 1)` with the
`Invert`-by-exponentiation of the library; `gx1 = x1(x1(x1+A)+1)`;
`x2 = -x1 - A`; `gx2 = t1·gx1`; choose `(x1, -root1)` when `gx1` is
square and `(x2, +root2)` otherwise. -/
def Elligator2Montgomery (e : F) : F × F :=
  let t1a := e ^ 2 * 2
  let t1 : F := if t1a = -1 then 0 else t1a
  let x1 := finv p25519 (t1 + 1) * -A
  let gx1 := ((x1 + A) * x1 + 1) * x1
  let x2 := -x1 - A
  let gx2 := t1 * gx1
  let sr1 := sqrtRatio25519 gx1 1
  let sr2 := sqrtRatio25519 gx2 1
  if sr1.2 = 1 then (x1, -sr1.1) else (x2, sr2.1)

/-- The claim's candidate `x1 = -A/(1 + Z·u²)` with its stated
special case `1 + Z·u² = 0 ⇒ x1 = 0` (`Z = 2`); written from the
claim's words, to be compared against the code. -/
def c5X1 (u : F) : F := if 1 + 2 * u ^ 2 = 0 then 0 else -A / (1 + 2 * u ^ 2)

/-- The claim's second candidate `x2 = -x1 - A`. -/
def c5X2 (u : F) : F := -c5X1 u - A

/-- The Montgomery right-hand side `g(x) = x³ + A·x² + x`. -/
def c5G (x : F) : F := x ^ 3 + A * x ^ 2 + x

theorem two_ne_zero25519 : (2 : F) ≠ 0 := by
  intro h
  have hcast : ((2 : ℕ) : F) = 0 := by
    rw [Nat.cast_ofNat]
    exact h
  have hv := congrArg ZMod.val hcast
  rw [ZMod.val_cast_of_lt (by decide : 2 < p25519), ZMod.val_zero] at hv
  exact two_ne_zero hv

theorem two_nonsquare : ¬ IsSquare (2 : F) := by
  intro hsq
  have heul := (ZMod.euler_criterion p25519 two_ne_zero25519).mp hsq
  have hcast : (2 : F) = ((2 : ℕ) : F) := by norm_cast
  rw [hcast, zmod_pow_cast p25519 2 (p25519 / 2) (by decide)] at heul
  have hval : powModF 300 2 (p25519 / 2) p25519 = p25519 - 1 := by decide
  rw [hval] at heul
  have hv := congrArg ZMod.val heul
  haveI : Fact (1 < p25519) := ⟨by decide⟩
  rw [ZMod.val_cast_of_lt (by decide : p25519 - 1 < p25519), ZMod.val_one] at hv
  revert hv
  decide

/-- The special case of the claim is unreachable: `1 + 2u²` never
vanishes in `F_(2^255-19)`, because `-1/2` is not a square (`-1` is a
square as `p ≡ 1 mod 4`, while `2` is not). -/
theorem one_add_two_sq_ne_zero (u : F) : 1 + 2 * u ^ 2 ≠ 0 := by
  intro h
  have hu : u ≠ 0 := by
    intro h0
    rw [h0] at h
    norm_num at h
  have hm1 : IsSquare (-1 : F) := by
    rw [ZMod.exists_sq_eq_neg_one_iff]
    decide
  obtain ⟨j, hj⟩ := hm1
  have hu2 : u ^ 2 ≠ 0 := pow_ne_zero 2 hu
  have h2sq : IsSquare (2 : F) := by
    refine ⟨j * u⁻¹, ?_⟩
    have hexp : (2 : F) * u ^ 2 = -1 := by linear_combination h
    have hinv : u ^ 2 * (u ^ 2)⁻¹ = 1 := mul_inv_cancel₀ hu2
    calc (2 : F) = 2 * (u ^ 2 * (u ^ 2)⁻¹) := by rw [hinv, mul_one]
      _ = 2 * u ^ 2 * (u ^ 2)⁻¹ := by ring
      _ = j * j * (u ^ 2)⁻¹ := by rw [hexp, hj]
      _ = j * u⁻¹ * (j * u⁻¹) := by rw [← inv_pow]; ring
  exact two_nonsquare h2sq

theorem posSqrt_spec (a : F) (ha : IsSquare a) :
    posSqrt a * posSqrt a = a ∧ (posSqrt a).val % 2 = 0 := by
  obtain ⟨s, hs⟩ := ha
  have hodd : p25519 % 2 = 1 := by decide
  have hcand : ∃ r : F, r * r = a ∧ r.val % 2 = 0 := by
    by_cases hpar : s.val % 2 = 0
    · exact ⟨s, hs.symm, hpar⟩
    · refine ⟨-s, by rw [neg_mul_neg]; exact hs.symm, ?_⟩
      have hs0 : s ≠ 0 := by
        intro h0
        rw [h0, ZMod.val_zero] at hpar
        exact hpar rfl
      rw [ZMod.neg_val, if_neg hs0]
      have hlt := ZMod.val_lt s
      omega
  obtain ⟨r, hrr, hre⟩ := hcand
  have hmem : r.val ∈ List.range p25519 := List.mem_range.mpr (ZMod.val_lt r)
  have hcastr : ((r.val : ℕ) : F) = r := ZMod.natCast_rightInverse r
  have hpred : (fun i : ℕ =>
      decide (((i : ℕ) : F) * ((i : ℕ) : F) = a ∧ i % 2 = 0)) r.val = true := by
    simp only [decide_eq_true_eq]
    rw [hcastr]
    exact ⟨hrr, hre⟩
  have hsome : ((List.range p25519).find?
      (fun i : ℕ => decide (((i : ℕ) : F) * ((i : ℕ) : F) = a ∧ i % 2 = 0))).isSome := by
    rw [List.find?_isSome]
    exact ⟨r.val, hmem, hpred⟩
  obtain ⟨x, hx⟩ := Option.isSome_iff_exists.mp hsome
  have hpx := List.find?_some hx
  have hxm := List.mem_of_find?_eq_some hx
  have hxlt : x < p25519 := List.mem_range.mp hxm
  simp only [decide_eq_true_eq] at hpx
  unfold posSqrt
  rw [hx, Option.getD_some]
  refine ⟨hpx.1, ?_⟩
  rw [ZMod.val_cast_of_lt hxlt]
  exact hpx.2

/-- The Elligator 2 identity behind `gx2 := t1 * gx1`: whenever
`x1·(1 + t) = -A`, the Montgomery polynomial satisfies
`g(-x1 - A) = t · g(x1)`. -/
theorem ell2_gx2_identity (t x1 : F) (h : x1 * (1 + t) = -A) :
    c5G (-x1 - A) = t * c5G x1 := by
  unfold c5G
  have hA : A = -(x1 * (1 + t)) := by linear_combination h
  rw [hA]
  ring

/-- C5: for every `u` in `F_(2^255-19)`, `Elligator2Montgomery`
computes the claim's candidates `x1 = -A/(1 + Z·u²)` (the stated
special case `1 + Z·u² = 0` being unreachable, see
`one_add_two_sq_ne_zero`) and `x2 = -x1 - A` with `Z = 2`,
`A = 486662`, and returns `(x1, -sqrt(gx1))` when
`gx1 = x1³ + A·x1² + x1` is a square and `(x2, +sqrt(gx2))`
otherwise, where `sqrt` is the non-negative (even) square root. -/
theorem claim_c5_elligator2 (u : ZMod p25519) :
    ∃ r : ZMod p25519,
      r * r = (if IsSquare (c5G (c5X1 u)) then c5G (c5X1 u) else c5G (c5X2 u)) ∧
      r.val % 2 = 0 ∧
      Elligator2Montgomery u =
        (if IsSquare (c5G (c5X1 u)) then (c5X1 u, -r) else (c5X2 u, r)) := by
  have hp2 : p25519 ≠ 2 := by decide
  have hd : (1 : F) + 2 * u ^ 2 ≠ 0 := one_add_two_sq_ne_zero u
  have ht1a : u ^ 2 * 2 ≠ -1 := by
    intro h
    exact hd (by linear_combination h)
  have hx1 : finv p25519 (u ^ 2 * 2 + 1) * -A = c5X1 u := by
    rw [finv_eq_inv p25519 hp2]
    unfold c5X1
    rw [if_neg hd, show u ^ 2 * 2 + 1 = 1 + 2 * u ^ 2 from by ring,
      div_eq_mul_inv, mul_comm (-A) (1 + 2 * u ^ 2)⁻¹]
  have hg1 : ((c5X1 u + A) * c5X1 u + 1) * c5X1 u = c5G (c5X1 u) := by
    unfold c5G
    ring
  have hx2 : -c5X1 u - A = c5X2 u := rfl
  have hr : c5X1 u * (1 + u ^ 2 * 2) = -A := by
    unfold c5X1
    rw [if_neg hd, show (1 : F) + u ^ 2 * 2 = 1 + 2 * u ^ 2 from by ring,
      div_eq_mul_inv, mul_assoc, inv_mul_cancel₀ hd, mul_one]
  have hg2 : u ^ 2 * 2 * c5G (c5X1 u) = c5G (c5X2 u) :=
    (ell2_gx2_identity (u ^ 2 * 2) (c5X1 u) hr).symm
  have hsr : ∀ a : F, sqrtRatio25519 a 1 =
      if IsSquare a then (posSqrt a, 1) else (posSqrt (sqrtM1 * a), 0) := by
    intro a
    unfold sqrtRatio25519
    rw [inv_one, mul_one]
  simp only [Elligator2Montgomery]
  rw [if_neg ht1a, hx1, hg1, hx2, hg2, hsr, hsr]
  by_cases hsq : IsSquare (c5G (c5X1 u))
  · refine ⟨posSqrt (c5G (c5X1 u)), ?_, (posSqrt_spec _ hsq).2, ?_⟩
    · rw [if_pos hsq]
      exact (posSqrt_spec _ hsq).1
    · simp only [if_pos hsq]
      rfl
  · have hsq2 : IsSquare (c5G (c5X2 u)) := by
      rcases eq_or_ne u 0 with hu0 | hu0
      · have h10 : c5X1 0 = -A := by
          unfold c5X1
          rw [if_neg (one_add_two_sq_ne_zero 0)]
          norm_num
        have h20 : c5X2 0 = 0 := by
          unfold c5X2
          rw [h10]
          ring
        have hz : c5G (c5X2 u) = 0 := by
          rw [hu0, h20]
          unfold c5G
          ring
        rw [hz]
        exact ⟨0, (mul_zero 0).symm⟩
      · rw [← hg2]
        apply nonsquare_mul_nonsquare p25519 hp2
        · exact mul_ne_zero (pow_ne_zero 2 hu0) two_ne_zero25519
        · intro h0
          apply hsq
          rw [h0]
          exact ⟨0, (mul_zero 0).symm⟩
        · exact square_mul_nonsquare p25519 (u ^ 2) 2 (pow_ne_zero 2 hu0)
            ⟨u, by ring⟩ two_nonsquare
        · exact hsq
    refine ⟨posSqrt (c5G (c5X2 u)), ?_, (posSqrt_spec _ hsq2).2, ?_⟩
    · rw [if_neg hsq]
      exact (posSqrt_spec _ hsq2).1
    · simp only [if_neg hsq, if_pos hsq2]
      rfl

end Ed25519

end H2C
